import Mathlib

/- Shallow embedding of the icarogw catalog module (catalog.py): the
   completeness-corrected galaxy density interpolation engine. Numeric
   values are modelled with exact rationals, except for the EM likelihood
   term, which involves the gaussian density and is modelled over the
   real numbers. External collaborators of the module (cosmology class,
   luminosity model, k-correction, sky pixelization, numpy percentile,
   the float16 cast) are abstract parameters, mirroring the interface
   the source consumes. -/

/-- Galaxy record of the catalog: redshift z, redshift uncertainty
sigmaz, apparent magnitude m, native sky pixel id (sky_indices in the
source) and the coarse pixel id at the threshold resolution
(skypixmthr in the source). -/
structure Galaxy where
  z : ℚ
  sigmaz : ℚ
  m : ℚ
  pix : ℕ
  coarse : ℕ
deriving DecidableEq, Repr

/-- Errors the Python code can raise. A valueErr models a ValueError
raised explicitly; a nameErr models the NameError Python raises when a
statement references a variable that was never assigned; unboundLocal
models the UnboundLocalError raised by reading a local variable that no
branch assigned. -/
inductive PyErr where
  | valueErr (msg : String)
  | nameErr (undefinedName : String)
  | unboundLocal (localName : String)
deriving DecidableEq, Repr

deriving instance DecidableEq for Except

/-- Adjacent pairs of a list: the zip of the list with its own tail. -/
def pairsL {α : Type} (l : List α) : List (α × α) := l.zip l.tail

/-- numpy linspace with endpoint=True over the rationals:
n points from a to b, point i at a + i * (b - a) / (n - 1). -/
def linspaceQ (a b : ℚ) (n : ℕ) : List ℚ :=
  (List.range n).map fun (i : ℕ) => a + (i : ℚ) * (b - a) / ((n : ℚ) - 1)

/-- Sort a rational list into nondecreasing order (numpy sort). -/
def sortQ (l : List ℚ) : List ℚ := l.insertionSort (· ≤ ·)

/-- The even-odd pruning pass of the adaptive grid loop
(catalog.py lines 489-494). On the sorted merged grid, numpy deletes the
odd-position entry z[2j+1] whenever the surrounding even entries satisfy
z[2j+2] - z[2j] < delta. Decisions only inspect even-position entries,
which are never deleted, so the pass is equivalently computed by walking
the list two positions at a time. -/
def pruneOdd (delta : ℚ) : List ℚ → List ℚ
  | a :: b :: c :: rest =>
    if c - a < delta then a :: pruneOdd delta (c :: rest)
    else a :: b :: pruneOdd delta (c :: rest)
  | l => l

/-- Remove adjacent duplicates of a sorted list. -/
def dedupSorted : List ℚ → List ℚ
  | a :: b :: rest => if a = b then dedupSorted (b :: rest) else a :: dedupSorted (b :: rest)
  | l => l

/-- numpy unique: sort, then drop duplicates. -/
def npuniqueQ (l : List ℚ) : List ℚ := dedupSorted (sortQ l)

/-- Lower edge of the support window of a galaxy
(catalog.py line 468 and 484): max of z - Numsigma * sigmaz and 1e-6. -/
def zminOf (Numsigma : ℚ) (g : Galaxy) : ℚ :=
  max (g.z - Numsigma * g.sigmaz) (1/1000000)

/-- Upper edge of the support window of a galaxy
(catalog.py line 469 and 485): min of z + Numsigma * sigmaz and zcut. -/
def zmaxOf (Numsigma zcut : ℚ) (g : Galaxy) : ℚ :=
  min (g.z + Numsigma * g.sigmaz) zcut

/-- In-range selection of catalog.py line 461: galaxies whose support
window meets the interval from 1e-6 to zcut. -/
def calc_dN_in_range (cat : List Galaxy) (Numsigma zcut : ℚ) : List Galaxy :=
  cat.filter fun g =>
    decide (g.z - Numsigma * g.sigmaz ≤ zcut) && decide (1/1000000 ≤ g.z + Numsigma * g.sigmaz)

/-- Entry check of calc_dN_by_dzdOmega_interpolant, catalog.py lines
461-463. When no galaxy is in range the source executes
raise ValueError with a format string that references the name maxz,
which is never assigned in that function; Python therefore raises a
NameError for maxz before any ValueError can be constructed. -/
def calc_dN_precheck (cat : List Galaxy) (Numsigma zcut : ℚ) :
    Except PyErr (List Galaxy) :=
  let idx_in_range := calc_dN_in_range cat Numsigma zcut
  if idx_in_range = [] then .error (.nameErr "maxz") else .ok idx_in_range

/-- Processing order relation of the grid loop: the source argsorts the
interpolation widths and reverses, so galaxies are processed in
nonincreasing width order (catalog.py lines 476-478). -/
def widthGE (Numsigma zcut : ℚ) (g h : Galaxy) : Prop :=
  zmaxOf Numsigma zcut h - zminOf Numsigma h ≤ zmaxOf Numsigma zcut g - zminOf Numsigma g

instance widthGE.decRel (Numsigma zcut : ℚ) : DecidableRel (widthGE Numsigma zcut) :=
  fun _ _ => inferInstanceAs (Decidable (_ ≤ _))

instance widthGE.total (Numsigma zcut : ℚ) : IsTotal Galaxy (widthGE Numsigma zcut) :=
  ⟨fun _ _ => le_total _ _⟩

instance widthGE.trans (Numsigma zcut : ℚ) : IsTrans Galaxy (widthGE Numsigma zcut) :=
  ⟨fun _ _ _ hab hbc => le_trans hbc hab⟩

/-- One iteration of the adaptive grid loop (catalog.py lines 483-494):
generate Nintegration evenly spaced points across the support window of
the galaxy, merge them into the running grid by sorting, then run the
even-odd pruning pass with delta the window width over Nintegration. -/
def grid_step (Numsigma zcut : ℚ) (Nintegration : ℕ) (z_grid : List ℚ) (g : Galaxy) :
    List ℚ :=
  let zmin := zminOf Numsigma g
  let zmax := zmaxOf Numsigma zcut g
  let zinterpolator := linspaceQ zmin zmax Nintegration
  let delta := (zmax - zmin) / (Nintegration : ℚ)
  pruneOdd delta (sortQ (z_grid ++ zinterpolator))

/-- The adaptive redshift grid of calc_dN_by_dzdOmega_interpolant
(catalog.py lines 476-496): start from Nintegration evenly spaced points
on the interval from 1e-6 to zcut, loop over the in-range galaxies in
nonincreasing width order, and finish with numpy unique. -/
def calc_zgrid (cat : List Galaxy) (Numsigma zcut : ℚ) (Nintegration : ℕ) : List ℚ :=
  let gals := (calc_dN_in_range cat Numsigma zcut).insertionSort (widthGE Numsigma zcut)
  npuniqueQ (gals.foldl (grid_step Numsigma zcut Nintegration)
    (linspaceQ (1/1000000) zcut Nintegration))

/-- Per-pixel apparent magnitude threshold map (catalog.py lines
320-330): for each pixel index, gather the galaxies whose coarse pixel
id equals the coarsened center of that pixel and take the percentile of
their apparent magnitudes; a pixel with no galaxy keeps the sentinel,
the smallest representable value, modelled as bottom. The percentile
computation and the pixel coarsening are external (numpy and healpy) and
are abstract parameters. -/
def mthr_sky_map (cat : List Galaxy) (coarsen : ℕ → ℕ) (percentile : List ℚ → ℚ)
    (npixels : ℕ) : List (WithBot ℚ) :=
  (List.range npixels).map fun indx =>
    let ind := cat.filter fun g => decide (g.coarse = coarsen indx)
    if ind = [] then ⊥ else ((percentile (ind.map Galaxy.m) : ℚ) : WithBot ℚ)

/-- The global re-filtering pass of calculate_mthr (catalog.py lines
335-340): a galaxy is kept exactly when its apparent magnitude is at
most the threshold stored for its native sky pixel. -/
def mthr_filter_catalog (cat : List Galaxy) (mthr : List (WithBot ℚ)) : List Galaxy :=
  cat.filter fun g => decide ((g.m : WithBot ℚ) ≤ mthr.getD g.pix ⊥)

/-- calculate_mthr with a numeric percentile: build the threshold map,
then filter the catalog against it. Returns the map and the surviving
catalog. -/
def calculate_mthr (cat : List Galaxy) (coarsen : ℕ → ℕ) (percentile : List ℚ → ℚ)
    (npixels : ℕ) : List (WithBot ℚ) × List Galaxy :=
  let mthr := mthr_sky_map cat coarsen percentile npixels
  (mthr, mthr_filter_catalog cat mthr)

/-- State of the threshold map attribute of the catalog class: either
the string marker written by the empty mode, or the per-pixel array. -/
inductive MthrMapState where
  | empty : MthrMapState
  | built : List (WithBot ℚ) → MthrMapState
deriving DecidableEq

/-- Cosmology interface consumed by the query path. -/
structure QueryCosmo where
  z2dl : ℚ → ℚ
  dVc_by_dzdOmega_at_z : ℚ → ℚ

/-- Luminosity model interface: the background effective galaxy density
as a function of the absolute magnitude threshold; bottom is minus
infinity, the fully complete assumption. -/
structure LumModel where
  background_effective_galaxy_density : WithBot ℚ → ℚ

/-- The loaded interpolation state of the galaxy_catalog class, as read
by effective_galaxy_number_interpolant. -/
structure CatalogInterp where
  mthr_map : MthrMapState
  z_grid : List ℚ
  pixel_grid : List ℚ
  dN_vals : List (List ℚ)
  sky_mean : List ℚ
deriving DecidableEq

/-- Index of the grid cell containing x: number of grid knots at most x,
minus one. -/
def cellIdx (xs : List ℚ) (x : ℚ) : ℕ :=
  (xs.takeWhile fun t => decide (t ≤ x)).length - 1

/-- scipy interpn with method linear, bounds_error False and fill_value
zero, on the two-dimensional rectilinear grid (z_grid, pixel_grid):
zero for any query point outside the coordinate range of the grid,
bilinear cell interpolation inside. -/
def interpn_linear (zg pg : List ℚ) (vals : List (List ℚ)) (zq pq : ℚ) : ℚ :=
  if zq < zg.headD 0 ∨ zg.getLastD 0 < zq ∨ pq < pg.headD 0 ∨ pg.getLastD 0 < pq then 0
  else
    let i := min (cellIdx zg zq) (zg.length - 2)
    let j := min (cellIdx pg pq) (pg.length - 2)
    let z0 := zg.getD i 0
    let z1 := zg.getD (i + 1) 0
    let p0 := pg.getD j 0
    let p1 := pg.getD (j + 1) 0
    let t := if z1 = z0 then 0 else (zq - z0) / (z1 - z0)
    let u := if p1 = p0 then 0 else (pq - p0) / (p1 - p0)
    let v := fun a b => (vals.getD a []).getD b 0
    (1 - t) * (1 - u) * v i j + t * (1 - u) * v (i + 1) j +
      (1 - t) * u * v i (j + 1) + t * u * v (i + 1) (j + 1)

/-- jnp.interp with left=0 and right=0: one-dimensional linear
interpolation that returns zero strictly outside the knot range. -/
def jinterp (xs ys : List ℚ) (xq : ℚ) : ℚ :=
  if xq < xs.headD 0 ∨ xs.getLastD 0 < xq then 0
  else
    let i := min (cellIdx xs xq) (xs.length - 2)
    let x0 := xs.getD i 0
    let x1 := xs.getD (i + 1) 0
    let y0 := ys.getD i 0
    let y1 := ys.getD (i + 1) 0
    if x1 = x0 then y0 else y0 + (y1 - y0) * (xq - x0) / (x1 - x0)

/-- calc_Mthr of the galaxy_catalog class: absolute magnitude threshold
of one query point, from the stored apparent magnitude threshold of the
pixel, the luminosity distance and the k-correction. m2M and the
k-correction are external; m2M maps the sentinel to the sentinel. -/
def calc_Mthr (mmap : List (WithBot ℚ)) (m2M : WithBot ℚ → ℚ → ℚ → WithBot ℚ)
    (kcorr : ℚ → ℚ) (cosmo : QueryCosmo) (p : ℚ × ℕ) : WithBot ℚ :=
  m2M (mmap.getD p.2 ⊥) (cosmo.z2dl p.1) (kcorr p.1)

/-- The absolute magnitude threshold array computed by
effective_galaxy_number_interpolant (catalog.py lines 563-565): the
calc_Mthr value, overwritten with minus infinity at every query
redshift strictly above the last knot of the built grid. -/
def query_Mthr_array (catI : CatalogInterp) (mmap : List (WithBot ℚ))
    (m2M : WithBot ℚ → ℚ → ℚ → WithBot ℚ) (kcorr : ℚ → ℚ) (cosmo : QueryCosmo)
    (z : List ℚ) (skypos : List ℕ) : List (WithBot ℚ) :=
  (z.zip skypos).map fun p =>
    if catI.z_grid.getLastD 0 < p.1 then ⊥ else calc_Mthr mmap m2M kcorr cosmo p

/-- effective_galaxy_number_interpolant (catalog.py lines 533-576),
returning the catalog part and the background part. In empty mode the
catalog part is identically zero and the background part is the
background effective density at minus infinity times the differential
comoving volume. Otherwise the catalog part is the stored table
interpolation (or the sky-mean curve when average is requested) and the
background part uses the clamped absolute magnitude threshold array. -/
def effective_galaxy_number_interpolant (catI : CatalogInterp) (cosmo : QueryCosmo)
    (lum : LumModel) (m2M : WithBot ℚ → ℚ → ℚ → WithBot ℚ) (kcorr : ℚ → ℚ)
    (z : List ℚ) (skypos : List ℕ) (average : Bool) : List ℚ × List ℚ :=
  match catI.mthr_map with
  | .empty =>
      (z.map fun _ => 0,
       z.map fun zz => lum.background_effective_galaxy_density ⊥ *
         cosmo.dVc_by_dzdOmega_at_z zz)
  | .built mmap =>
      let Mthr := query_Mthr_array catI mmap m2M kcorr cosmo z skypos
      let gcpart :=
        if average then z.map (jinterp catI.z_grid catI.sky_mean)
        else (z.zip skypos).map fun p =>
          interpn_linear catI.z_grid catI.pixel_grid catI.dN_vals p.1 (p.2 : ℚ)
      let bgpart := (Mthr.zip z).map fun q =>
        lum.background_effective_galaxy_density q.1 * cosmo.dVc_by_dzdOmega_at_z q.2
      (gcpart, bgpart)

/-- Persistent store failures of the h5py layer: create_dataset raises
when a dataset of that name already exists; reading a missing attribute
raises KeyError. -/
inductive H5Err where
  | datasetExists : H5Err
  | keyErr : H5Err
deriving DecidableEq, Repr

/-- The dNgal_dzdOm_interpolant group of the HDF5 file: the checkpoint
attribute, the two grid datasets, and the per-pixel value datasets
keyed by pixel index. -/
structure InterpStore (V : Type) where
  chk : Option ℕ
  zgridDs : Option (List ℚ)
  pixgridDs : Option (List ℕ)
  vals : List (ℕ × List (Option V))
deriving DecidableEq

/-- Lookup of a per-pixel dataset by pixel index. -/
def dsLookup {V : Type} (vals : List (ℕ × List (Option V))) (i : ℕ) :
    Option (List (Option V)) :=
  (vals.find? fun p => decide (p.1 = i)).map Prod.snd

/-- The pixel loop of calc_dN_by_dzdOmega_interpolant (catalog.py lines
508-529) over a list of pixel indices, with col the per-pixel column
computation. Each iteration first persists the checkpoint attribute,
then creates the per-pixel dataset; create_dataset fails if the dataset
already exists. Returns the list of store states after each durable
write together with the outcome. -/
def interpLoopRun {V : Type} (col : ℕ → List (Option V)) :
    List ℕ → InterpStore V → List (InterpStore V) × Except H5Err (InterpStore V)
  | [], st => ([], .ok st)
  | i :: rest, st =>
    let st1 : InterpStore V := { st with chk := some i }
    if (dsLookup st1.vals i).isSome then ([st1], .error .datasetExists)
    else
      let st2 : InterpStore V := { st1 with vals := st1.vals ++ [(i, col i)] }
      let r := interpLoopRun col rest st2
      (st1 :: st2 :: r.1, r.2)

/-- One pass of calc_dN_by_dzdOmega_interpolant from a given starting
pixel index (catalog.py lines 501-529): when the starting index is
zero the z_grid and pixel_grid datasets are created first, then the
pixel loop runs over the indices from the starting index to npixels. -/
def interpPass {V : Type} (col : ℕ → List (Option V)) (zg : List ℚ) (npixels : ℕ)
    (indx_sky : ℕ) (st0 : InterpStore V) :
    List (InterpStore V) × Except H5Err (InterpStore V) :=
  if indx_sky = 0 then
    if st0.zgridDs.isSome then ([], .error .datasetExists)
    else
      let stA : InterpStore V := { st0 with zgridDs := some zg }
      if stA.pixgridDs.isSome then ([stA], .error .datasetExists)
      else
        let stB : InterpStore V := { stA with pixgridDs := some (List.range npixels) }
        let r := interpLoopRun col (List.range' indx_sky (npixels - indx_sky)) stB
        (stA :: stB :: r.1, r.2)
  else interpLoopRun col (List.range' indx_sky (npixels - indx_sky)) st0

/-- A fresh interpolant group, as created by the try branch of
catalog.py lines 439-446. -/
def interpFreshStore (V : Type) : InterpStore V := ⟨none, none, none, []⟩

/-- An uninterrupted build: the pass starts at pixel zero on a fresh
group. -/
def calc_interpolant_fresh {V : Type} (col : ℕ → List (Option V)) (zg : List ℚ)
    (npixels : ℕ) : List (InterpStore V) × Except H5Err (InterpStore V) :=
  interpPass col zg npixels 0 (interpFreshStore V)

/-- A resumed build (the except branch of catalog.py lines 447-450):
read the persisted checkpoint and run the pass from it; reading a
missing checkpoint attribute raises KeyError. -/
def calc_interpolant_resume {V : Type} (col : ℕ → List (Option V)) (zg : List ℚ)
    (npixels : ℕ) (st : InterpStore V) :
    List (InterpStore V) × Except H5Err (InterpStore V) :=
  match st.chk with
  | none => ([], .error .keyErr)
  | some k => interpPass col zg npixels k st

/-- The mthr_map group state: the checkpoint attribute and the mthr_sky
dataset, created with every entry at the sentinel. -/
structure MthrStore where
  chk : Option ℕ
  mthr : List (WithBot ℚ)
deriving DecidableEq

/-- The pixel loop of calculate_mthr (catalog.py lines 320-330) over a
list of pixel indices, with val the per-pixel threshold computation
(none models a pixel with no galaxy, where the loop continues without
writing). Each iteration first persists the checkpoint attribute, then
assigns the entry of the mthr_sky dataset in place. Returns the list of
store states after each durable write. -/
def mthrLoopRun (val : ℕ → Option ℚ) : List ℕ → MthrStore → List MthrStore
  | [], _ => []
  | i :: rest, st =>
    let st1 : MthrStore := { st with chk := some i }
    match val i with
    | none => st1 :: mthrLoopRun val rest st1
    | some v =>
      let st2 : MthrStore := { st1 with mthr := st1.mthr.set i (v : WithBot ℚ) }
      st1 :: st2 :: mthrLoopRun val rest st2

/-- The value the completed threshold loop leaves in entry j: the
computed threshold, or the sentinel when pixel j has no galaxy. -/
def mthrFinalEntry (val : ℕ → Option ℚ) (j : ℕ) : WithBot ℚ :=
  match val j with
  | none => ⊥
  | some v => (v : WithBot ℚ)

/-- A fresh mthr_map group: no checkpoint attribute yet, every entry of
mthr_sky at the sentinel (catalog.py lines 306-312). -/
def mthrFreshStore (npixels : ℕ) : MthrStore := ⟨none, List.replicate npixels ⊥⟩

/-- An uninterrupted threshold loop on a fresh group. -/
def calculate_mthr_trace (val : ℕ → Option ℚ) (npixels : ℕ) : List MthrStore :=
  mthrLoopRun val (List.range' 0 npixels) (mthrFreshStore npixels)

/-- The all-NaN column written for a pixel with no contributing galaxy
(catalog.py lines 511-515): NaN is modelled as none. -/
def nanColumn {V : Type} (z_grid : List ℚ) : List (Option V) :=
  z_grid.map fun _ => none

/-- The per-pixel column computation of the interpolant loop
(catalog.py lines 510-528), generic in the value type V. contrib is the
per-galaxy integrand of lines 522-525: the product of the
luminosity-weighted rate at the implied absolute magnitude and the EM
likelihood prior term, divided by the pixel solid angle (all external
at this level). vlog models the natural logarithm, round16 the float16
cast. When no galaxy contributes, the stored column is all NaN.
Otherwise the contributions are accumulated pointwise over the grid,
entries exactly equal to zero are replaced by NaN, and the remaining
entries are stored as round16 of vlog of the sum. -/
def pixelColumn {V : Type} [AddCommMonoid V] [DecidableEq V] (vlog round16 : V → V)
    (contrib : Galaxy → ℚ → V) (z_grid : List ℚ) (gals : List Galaxy) :
    List (Option V) :=
  if gals = [] then nanColumn z_grid
  else
    let interpo : List V :=
      gals.foldl (fun acc g => List.zipWith (· + ·) acc (z_grid.map (contrib g)))
        (z_grid.map fun _ => 0)
    (interpo.map fun x => if x = 0 then none else some x).map
      (Option.map fun x => round16 (vlog x))

/-- The column written for pixel i: the galaxies of the in-range subset
whose native pixel equals i feed the accumulation (catalog.py lines
506 and 510). -/
def interpColumn {V : Type} [AddCommMonoid V] [DecidableEq V] (vlog round16 : V → V)
    (contrib : Galaxy → ℚ → V) (z_grid : List ℚ) (cat : List Galaxy)
    (Numsigma zcut : ℚ) (i : ℕ) : List (Option V) :=
  pixelColumn vlog round16 contrib z_grid
    ((calc_dN_in_range cat Numsigma zcut).filter fun g => decide (g.pix = i))

/-- Cosmology interface consumed by the EM likelihood term, over the
real numbers. -/
structure CosmologyR where
  dVc_by_dzdOmega_at_z : ℝ → ℝ
  z2Vc : ℝ → ℝ

/-- user_normal of catalog.py lines 12-26: the normalized gaussian
density. The float power with exponent 2.0 is squaring; the power with
exponent -0.5 is the real power. -/
noncomputable def user_normal (x mu sigma : ℝ) : ℝ :=
  (2 * Real.pi * sigma ^ 2) ^ (-(1 : ℝ) / 2) * Real.exp (-(1 / 2) * ((x - mu) / sigma) ^ 2)

/-- Trapezoid integration (numpy trapz) of sampled values y over sample
points x. -/
noncomputable def trapzR : List ℝ → List ℝ → ℝ
  | y1 :: y2 :: ys, x1 :: x2 :: xs => (x2 - x1) * (y1 + y2) / 2 + trapzR (y2 :: ys) (x2 :: xs)
  | _, _ => 0

/-- numpy linspace over the real numbers. -/
noncomputable def linspaceR (a b : ℝ) (n : ℕ) : List ℝ :=
  (List.range n).map fun (i : ℕ) => a + (i : ℝ) * (b - a) / ((n : ℝ) - 1)

/-- The normalization integral of the gaussian modes of the EM
likelihood term (catalog.py lines 72-73 and 92-93): trapz over the
5000 point auxiliary grid from zvalmin to zvalmax, with the comoving
volume density factor present exactly in mode gaussian. -/
noncomputable def EM_normfact (withCom : Bool) (cosmology : CosmologyR)
    (zobs sigmaz zvalmin zvalmax : ℝ) : ℝ :=
  let zproxy := linspaceR zvalmin zvalmax 5000
  if withCom then
    trapzR (zproxy.map fun zp => cosmology.dVc_by_dzdOmega_at_z zp * user_normal zp zobs sigmaz)
      zproxy
  else trapzR (zproxy.map fun zp => user_normal zp zobs sigmaz) zproxy

/-- EM_likelihood_prior_differential_volume of catalog.py lines 28-105.
The branch structure is the Python if-elif chain on ptype; the final
return of an unassigned local for any other ptype is the Python
UnboundLocalError. The NaN check on the normalization integral has no
counterpart over the real numbers, where the trapezoid sum of real
sampled values is always a real number; the zero check is kept as in
the source. -/
noncomputable def EM_likelihood_prior_differential_volume (z : List ℝ) (zobs sigmaz : ℝ)
    (cosmology : CosmologyR) (Numsigma : ℝ) (ptype : String) :
    Except PyErr (List ℝ) :=
  let zvalmin := max (1 / 1000000) (zobs - Numsigma * sigmaz)
  if ptype = "uniform" then
    let zvalmax := zobs + Numsigma * sigmaz
    if zvalmax ≤ zvalmin then .ok (z.map fun _ => 0)
    else
      .ok (z.map fun zz =>
        4 * Real.pi * cosmology.dVc_by_dzdOmega_at_z zz *
          (if zobs - Numsigma * sigmaz ≤ zz ∧ zz ≤ zobs + Numsigma * sigmaz then 1 else 0) /
          (cosmology.z2Vc zvalmax - cosmology.z2Vc zvalmin))
  else if ptype = "gaussian" then
    let zvalmax := zobs + 5 * sigmaz
    if zvalmax ≤ zvalmin then .ok (z.map fun _ => 0)
    else
      let normfact := EM_normfact true cosmology zobs sigmaz zvalmin zvalmax
      if normfact = 0 then .error (.valueErr "Normalization failed")
      else
        .ok (z.map fun zz =>
          cosmology.dVc_by_dzdOmega_at_z zz * user_normal zz zobs sigmaz / normfact)
  else if ptype = "gaussian_nocom" then
    let zvalmax := zobs + 5 * sigmaz
    if zvalmax ≤ zvalmin then .ok (z.map fun _ => 0)
    else
      let normfact := EM_normfact false cosmology zobs sigmaz zvalmin zvalmax
      if normfact = 0 then .error (.valueErr "Normalization failed")
      else .ok (z.map fun zz => user_normal zz zobs sigmaz / normfact)
  else .error (.unboundLocal "prior_eval")

/-- A degenerate cosmology with identically zero interfaces, used as a
concrete instantiation. -/
def cosmoZero : CosmologyR := ⟨fun _ => 0, fun _ => 0⟩

/-- A concrete three pixel catalog used for concrete runs of the
interpolant loop. -/
def catC2 : List Galaxy :=
  [⟨1/2, 1/10, 1, 0, 0⟩, ⟨1/2, 1/10, 1, 1, 0⟩, ⟨1/2, 1/10, 1, 2, 0⟩]

/-- A concrete two knot grid for concrete runs of the interpolant
loop. -/
def gridC2 : List ℚ := [1/1000000, 1]

/-- The concrete per-pixel column function induced by the concrete
catalog, with identity in place of the logarithm and the float16 cast
and a unit contribution per galaxy. -/
def colC2 : ℕ → List (Option ℚ) := fun i =>
  interpColumn (fun x : ℚ => x) (fun x => x) (fun _ _ => (1 : ℚ)) gridC2 catC2 1 1 i

/-- Well-formedness of the running grid of the adaptive loop: sorted in
nondecreasing order, containing both endpoints, with every point inside
the interval from 1e-6 to zcut. -/
def GoodGrid (zcut : ℚ) (l : List ℚ) : Prop :=
  l.Sorted (· ≤ ·) ∧ (1/1000000 : ℚ) ∈ l ∧ zcut ∈ l ∧
    ∀ x ∈ l, 1/1000000 ≤ x ∧ x ≤ zcut

/-- Resolution of a grid on a window: every adjacent pair of grid
points that meets the open window from lo to hi has gap at most B. -/
def FineOn (lo hi B : ℚ) (l : List ℚ) : Prop :=
  ∀ p ∈ pairsL l, p.1 < hi → lo < p.2 → p.2 - p.1 ≤ B

/- Theorems. -/

/-- C5: with the threshold map in empty mode, the query returns a
catalog density identically zero and a background density equal to the
background effective density of the luminosity model at threshold
minus infinity times the differential comoving volume at each redshift,
for every redshift array, sky pixel array and cosmology, independent of
the stored catalog tables. -/
theorem query_empty_mode_spec (zg pg : List ℚ) (vals : List (List ℚ)) (sm : List ℚ)
    (cosmo : QueryCosmo) (lum : LumModel) (m2M : WithBot ℚ → ℚ → ℚ → WithBot ℚ)
    (kcorr : ℚ → ℚ) (z : List ℚ) (skypos : List ℕ) (average : Bool) :
    effective_galaxy_number_interpolant ⟨.empty, zg, pg, vals, sm⟩ cosmo lum m2M kcorr
        z skypos average =
      (z.map fun _ => 0,
       z.map fun zz => lum.background_effective_galaxy_density ⊥ *
         cosmo.dVc_by_dzdOmega_at_z zz) := rfl

/-- C4: after calculate_mthr with a numeric percentile completes its
global re-filtering pass, every surviving galaxy has apparent magnitude
at most the threshold of its sky pixel, every removed galaxy has
magnitude above the threshold of its pixel, and a pixel holding the
sentinel passes no galaxy. -/
theorem calculate_mthr_filter_spec (cat : List Galaxy) (coarsen : ℕ → ℕ)
    (percentile : List ℚ → ℚ) (npixels : ℕ) :
    (∀ g ∈ (calculate_mthr cat coarsen percentile npixels).2,
       (g.m : WithBot ℚ) ≤ (calculate_mthr cat coarsen percentile npixels).1.getD g.pix ⊥) ∧
    (∀ g ∈ cat, g ∉ (calculate_mthr cat coarsen percentile npixels).2 →
       (calculate_mthr cat coarsen percentile npixels).1.getD g.pix ⊥ < (g.m : WithBot ℚ)) ∧
    (∀ g ∈ cat, (calculate_mthr cat coarsen percentile npixels).1.getD g.pix ⊥ = ⊥ →
       g ∉ (calculate_mthr cat coarsen percentile npixels).2) := by
  simp only [calculate_mthr, mthr_filter_catalog]
  refine ⟨fun g hg => ?_, fun g hg hng => ?_, fun g hg hbot hmem => ?_⟩
  · have := (List.mem_filter.mp hg).2
    simpa using this
  · by_contra hle
    push_neg at hle
    exact hng (List.mem_filter.mpr ⟨hg, by simpa using hle⟩)
  · have := (List.mem_filter.mp hmem).2
    rw [hbot] at this
    simp at this

unseal Rat.add Rat.mul Rat.sub Rat.inv in
/-- Witness for C4: a concrete catalog of three galaxies, a constant
percentile of 15, and two pixels; the galaxy whose pixel holds the
sentinel is removed. -/
theorem calculate_mthr_filter_spec_witness :
    (⟨1, 1, 5, 1, 7⟩ : Galaxy) ∉
      (calculate_mthr [⟨1, 1, 10, 0, 0⟩, ⟨1, 1, 20, 0, 0⟩, ⟨1, 1, 5, 1, 7⟩]
        id (fun _ => 15) 2).2 :=
  (calculate_mthr_filter_spec [⟨1, 1, 10, 0, 0⟩, ⟨1, 1, 20, 0, 0⟩, ⟨1, 1, 5, 1, 7⟩]
    id (fun _ => 15) 2).2.2 ⟨1, 1, 5, 1, 7⟩ (by decide) (by decide)

/-- C10: EM_likelihood_prior_differential_volume returns through an
assigned branch only for ptype uniform, gaussian or gaussian_nocom;
for every other ptype string the local prior_eval is never assigned and
the final return raises UnboundLocalError rather than producing a
default or zero result. -/
theorem EM_unknown_ptype_raises (z : List ℝ) (zobs sigmaz : ℝ) (cosmology : CosmologyR)
    (Numsigma : ℝ) (ptype : String) (h1 : ptype ≠ "uniform") (h2 : ptype ≠ "gaussian")
    (h3 : ptype ≠ "gaussian_nocom") :
    EM_likelihood_prior_differential_volume z zobs sigmaz cosmology Numsigma ptype =
      .error (.unboundLocal "prior_eval") := by
  unfold EM_likelihood_prior_differential_volume
  rw [if_neg h1, if_neg h2, if_neg h3]

/-- Witness for C10: the ptype string powerlaw raises. -/
theorem EM_unknown_ptype_raises_witness :
    EM_likelihood_prior_differential_volume [] 0 0 cosmoZero 1 "powerlaw" =
      .error (.unboundLocal "prior_eval") :=
  EM_unknown_ptype_raises [] 0 0 cosmoZero 1 "powerlaw"
    (by decide) (by decide) (by decide)

unseal Rat.add Rat.mul Rat.sub Rat.inv in
/-- C9: on a catalog whose single galaxy has no support overlapping the
interval from 1e-6 to zcut equal to one, the build does fail
immediately, but with a NameError for the undefined name maxz raised
while formatting the error message, not with a ValueError reporting the
offending redshift range. -/
theorem calc_dN_no_galaxies_nameerror :
    calc_dN_precheck [⟨10, 1/10, 17, 0, 0⟩] 1 1 = .error (.nameErr "maxz") := by
  decide

/-- C8: with a built threshold map the query does not extrapolate: the
absolute magnitude threshold entry is set to minus infinity for every
query redshift strictly above the last knot of the built grid, and the
per-pixel catalog density entry is exactly zero for every query point
outside the coordinate range of the stored table. -/
theorem query_no_extrapolation (mmap : List (WithBot ℚ)) (zg pg : List ℚ)
    (vals : List (List ℚ)) (sm : List ℚ) (cosmo : QueryCosmo) (lum : LumModel)
    (m2M : WithBot ℚ → ℚ → ℚ → WithBot ℚ) (kcorr : ℚ → ℚ) (z : List ℚ)
    (skypos : List ℕ) (i : ℕ) (zi : ℚ) (pj : ℕ)
    (hp : (z.zip skypos).get? i = some (zi, pj)) :
    (zg.getLastD 0 < zi →
      (query_Mthr_array ⟨.built mmap, zg, pg, vals, sm⟩ mmap m2M kcorr cosmo
          z skypos).get? i = some ⊥) ∧
    ((zi < zg.headD 0 ∨ zg.getLastD 0 < zi ∨ (pj : ℚ) < pg.headD 0 ∨
        pg.getLastD 0 < (pj : ℚ)) →
      (effective_galaxy_number_interpolant ⟨.built mmap, zg, pg, vals, sm⟩ cosmo lum m2M
          kcorr z skypos false).1.get? i = some 0) := by
  constructor
  · intro hz
    unfold query_Mthr_array
    simp only [List.get?_map, hp, Option.map_some']
    rw [if_pos hz]
  · intro hout
    unfold effective_galaxy_number_interpolant
    simp only [Bool.false_eq_true, if_false]
    unfold interpn_linear
    simp only [List.get?_map, hp, Option.map_some']
    rw [if_pos hout]

unseal Rat.add Rat.mul Rat.sub Rat.inv in
/-- Witness for C8: a concrete two-knot grid with last knot one and a
query at redshift two, pixel zero; the threshold entry is minus
infinity and the catalog density entry is zero. -/
theorem query_no_extrapolation_witness :
    (query_Mthr_array ⟨.built [(20 : WithBot ℚ)], [1/1000000, 1], [0, 1], [[1, 2], [3, 4]],
        [1, 2]⟩ [(20 : WithBot ℚ)] (fun a _ _ => a) id ⟨id, id⟩ [2] [0]).get? 0 = some ⊥ ∧
    (effective_galaxy_number_interpolant ⟨.built [(20 : WithBot ℚ)], [1/1000000, 1], [0, 1],
        [[1, 2], [3, 4]], [1, 2]⟩ ⟨id, id⟩ ⟨fun _ => 1⟩ (fun a _ _ => a) id [2] [0]
        false).1.get? 0 = some 0 :=
  ⟨(query_no_extrapolation [(20 : WithBot ℚ)] [1/1000000, 1] [0, 1] [[1, 2], [3, 4]] [1, 2]
      ⟨id, id⟩ ⟨fun _ => 1⟩ (fun a _ _ => a) id [2] [0] 0 2 0 rfl).1 (by decide),
   (query_no_extrapolation [(20 : WithBot ℚ)] [1/1000000, 1] [0, 1] [[1, 2], [3, 4]] [1, 2]
      ⟨id, id⟩ ⟨fun _ => 1⟩ (fun a _ _ => a) id [2] [0] 0 2 0 rfl).2 (by decide)⟩

/-- Pointwise value of the accumulation loop of the interpolant engine:
folding pointwise addition of per-galaxy columns over a list of
galaxies computes, at each grid position, the starting value plus the
sum of the per-galaxy contributions there. -/
theorem foldl_zipWith_get? {V : Type} [AddCommMonoid V] (contrib : Galaxy → ℚ → V)
    (z_grid : List ℚ) (t : ℕ) (gs : List Galaxy) :
    ∀ acc : List V, acc.length = z_grid.length →
      (gs.foldl (fun a g => List.zipWith (· + ·) a (z_grid.map (contrib g))) acc).get? t =
        (acc.get? t).bind fun a0 =>
          (z_grid.get? t).map fun x => a0 + (gs.map fun g => contrib g x).sum := by
  induction gs with
  | nil =>
    intro acc hlen
    simp only [List.foldl_nil, List.map_nil, List.sum_nil, add_zero]
    cases h1 : acc.get? t with
    | none => rfl
    | some a0 =>
      obtain ⟨ht, _⟩ := List.get?_eq_some.mp h1
      rw [hlen] at ht
      rw [List.get?_eq_get ht]
      rfl
  | cons g rest ih =>
    intro acc hlen
    rw [List.foldl_cons,
      ih (List.zipWith (· + ·) acc (z_grid.map (contrib g))) (by simp [hlen]),
      List.get?_zipWith', List.get?_map]
    cases h1 : acc.get? t with
    | none => rfl
    | some a0 =>
      cases h2 : z_grid.get? t with
      | none => rfl
      | some x => simp [add_assoc]

/-- C7: the per-pixel column of the interpolant engine is all NaN when
no galaxy contributes to the pixel; otherwise each entry whose
accumulated sum is exactly zero is replaced by NaN, and every remaining
entry is stored as round16 of the natural logarithm of the sum. -/
theorem pixelColumn_spec {V : Type} [AddCommMonoid V] [DecidableEq V]
    (vlog round16 : V → V) (contrib : Galaxy → ℚ → V) (z_grid : List ℚ)
    (gals : List Galaxy) :
    (gals = [] → pixelColumn vlog round16 contrib z_grid gals = z_grid.map fun _ => none) ∧
    (gals ≠ [] → ∀ t x, z_grid.get? t = some x →
      (pixelColumn vlog round16 contrib z_grid gals).get? t =
        some (if (gals.map fun g => contrib g x).sum = 0 then none
              else some (round16 (vlog ((gals.map fun g => contrib g x).sum))))) := by
  constructor
  · intro h
    rw [pixelColumn, if_pos h]
    rfl
  · intro h t x hx
    rw [pixelColumn, if_neg h]
    rw [List.get?_map, List.get?_map,
      foldl_zipWith_get? contrib z_grid t gals (z_grid.map fun _ => 0) (by simp),
      List.get?_map, hx]
    simp only [Option.map_some', Option.some_bind, zero_add]
    by_cases hs : (gals.map fun g => contrib g x).sum = 0 <;> simp [hs]

unseal Rat.add Rat.mul Rat.sub Rat.inv in
/-- Witness for C7: one contributing galaxy with unit contribution on a
one-knot grid; the stored entry is the sum. -/
theorem pixelColumn_spec_witness :
    (pixelColumn (fun x : ℚ => x) (fun x => x) (fun _ _ => (1 : ℚ)) [5]
      [⟨1, 1, 1, 0, 0⟩]).get? 0 = some (some 1) := by
  have h := (pixelColumn_spec (fun x : ℚ => x) (fun x => x) (fun _ _ => (1 : ℚ)) [5]
    [⟨1, 1, 1, 0, 0⟩]).2 (by decide) 0 5 rfl
  simpa using h

unseal Rat.add Rat.mul Rat.sub Rat.inv in
/-- C2: resumability of the interpolant build breaks at pixel
boundaries. On a concrete three pixel catalog the uninterrupted build
succeeds, and the store state reached right after pixel one completes
(checkpoint one, datasets for pixels zero and one written) is a state
of the uninterrupted run; yet resuming from that persisted state fails
with a dataset-exists error from re-creating vals_pixel_1, instead of
producing the bit-identical table. -/
theorem interp_resume_after_pixel_fails :
    (calc_interpolant_fresh colC2 gridC2 3).2.toOption.isSome = true ∧
    (⟨some 1, some gridC2, some [0, 1, 2], [(0, colC2 0), (1, colC2 1)]⟩ : InterpStore ℚ) ∈
      (calc_interpolant_fresh colC2 gridC2 3).1 ∧
    (calc_interpolant_resume colC2 gridC2 3
      ⟨some 1, some gridC2, some [0, 1, 2], [(0, colC2 0), (1, colC2 1)]⟩).2 =
        .error .datasetExists := by
  decide

/-- The second component of an adjacent pair is a member of the list. -/
theorem pairsL_mem_right {α : Type} (l : List α) (p : α × α) (hp : p ∈ pairsL l) :
    p.2 ∈ l := by
  obtain ⟨a, b⟩ := p
  exact List.mem_of_mem_tail (List.of_mem_zip hp).2

/-- An adjacent pair of a cons is either the head paired with the head
of the tail, or an adjacent pair of the tail. -/
theorem pairsL_cons_cases {α : Type} (a : α) (l : List α) (p : α × α)
    (hp : p ∈ pairsL (a :: l)) :
    (∃ b, l.head? = some b ∧ p = (a, b)) ∨ p ∈ pairsL l := by
  cases l with
  | nil => simp [pairsL] at hp
  | cons b t =>
    have hp' : p ∈ (a, b) :: pairsL (b :: t) := hp
    rcases List.mem_cons.mp hp' with h | h
    · exact Or.inl ⟨b, rfl, h⟩
    · exact Or.inr h

/-- Entry read after a write at a different index. -/
theorem getD_set_ne {α : Type} (l : List α) (i j : ℕ) (a d : α) (h : i ≠ j) :
    (l.set i a).getD j d = l.getD j d := by
  simp [List.getD_eq_getElem?_getD, List.getElem?_set_ne h]

/-- Entry read after a write at the same, in-bounds index. -/
theorem getD_set_self {α : Type} (l : List α) (i : ℕ) (a d : α) (h : i < l.length) :
    (l.set i a).getD i d = a := by
  simp [List.getD_eq_getElem?_getD, List.getElem?_set_eq_of_lt a h]

/-- The first durable state of a nonempty threshold loop is the store
with the checkpoint set to the first pixel. -/
theorem mthrLoopRun_head (val : ℕ → Option ℚ) (i : ℕ) (rest : List ℕ) (st : MthrStore) :
    (mthrLoopRun val (i :: rest) st).head? = some { st with chk := some i } := by
  cases h : val i <;> simp [mthrLoopRun, h]

/-- Invariant of the threshold loop: starting the loop at pixel k on a
store whose entries below k are final and whose entries from k on are
still the sentinel, every durable state whose checkpoint reads c has
every entry below c already holding its final value. -/
theorem mthrLoopRun_invariant (val : ℕ → Option ℚ) (L : ℕ) :
    ∀ (n k : ℕ) (st0 : MthrStore), st0.mthr.length = L → k + n ≤ L →
      (∀ j, j < k → st0.mthr.getD j ⊥ = mthrFinalEntry val j) →
      (∀ j, k ≤ j → st0.mthr.getD j ⊥ = ⊥) →
      ∀ st ∈ mthrLoopRun val (List.range' k n) st0, ∀ c, st.chk = some c →
        ∀ j, j < c → st.mthr.getD j ⊥ = mthrFinalEntry val j := by
  intro n
  induction n with
  | zero => intro k st0 _ _ _ _ st hst; simp [mthrLoopRun] at hst
  | succ m ih =>
    intro k st0 hlen hkn hbelow habove st hst c hc j hj
    rw [List.range'_succ] at hst
    cases hv : val k with
    | none =>
      have hst' : st ∈ ({ st0 with chk := some k } :: mthrLoopRun val (List.range' (k + 1) m)
          { st0 with chk := some k }) := by
        simpa [mthrLoopRun, hv] using hst
      rcases List.mem_cons.mp hst' with rfl | hmem
      · simp only at hc
        cases hc
        exact hbelow j hj
      · exact ih (k + 1) { st0 with chk := some k } hlen (by omega)
          (fun j2 hj2 => by
            rcases Nat.lt_succ_iff_lt_or_eq.mp hj2 with h2 | rfl
            · exact hbelow j2 h2
            · rw [mthrFinalEntry, hv]; exact habove j2 le_rfl)
          (fun j2 hj2 => habove j2 (by omega)) st hmem c hc j hj
    | some v =>
      have hkL : k < L := by omega
      have hst' : st ∈ ({ st0 with chk := some k } ::
          { st0 with chk := some k, mthr := st0.mthr.set k (v : WithBot ℚ) } ::
          mthrLoopRun val (List.range' (k + 1) m)
            { st0 with chk := some k, mthr := st0.mthr.set k (v : WithBot ℚ) }) := by
        simpa [mthrLoopRun, hv] using hst
      rcases List.mem_cons.mp hst' with rfl | hst2
      · simp only at hc
        cases hc
        exact hbelow j hj
      rcases List.mem_cons.mp hst2 with rfl | hmem
      · simp only at hc
        cases hc
        rw [getD_set_ne _ _ _ _ _ (by omega)]
        exact hbelow j hj
      · exact ih (k + 1) _ (by simpa using hlen) (by omega)
          (fun j2 hj2 => by
            rcases Nat.lt_succ_iff_lt_or_eq.mp hj2 with h2 | rfl
            · rw [getD_set_ne _ _ _ _ _ (by omega)]
              exact hbelow j2 h2
            · rw [getD_set_self _ _ _ _ (by omega), mthrFinalEntry, hv])
          (fun j2 hj2 => by
            rw [getD_set_ne _ _ _ _ _ (by omega)]
            exact habove j2 (by omega)) st hmem c hc j hj

/-- Between adjacent durable states of the threshold loop, either the
dataset is unchanged (the write was the checkpoint attribute) or the
checkpoint is unchanged (the write was the dataset entry). -/
theorem mthrLoopRun_adj (val : ℕ → Option ℚ) :
    ∀ (is : List ℕ) (st0 : MthrStore), ∀ p ∈ pairsL (mthrLoopRun val is st0),
      p.2.mthr = p.1.mthr ∨ p.1.chk = p.2.chk := by
  intro is
  induction is with
  | nil => intro st0 p hp; simp [mthrLoopRun, pairsL] at hp
  | cons i rest ih =>
    intro st0 p hp
    cases hv : val i with
    | none =>
      have hp' : p ∈ pairsL ({ st0 with chk := some i } ::
          mthrLoopRun val rest { st0 with chk := some i }) := by
        simpa [mthrLoopRun, hv] using hp
      rcases pairsL_cons_cases _ _ _ hp' with ⟨b, hb, rfl⟩ | h
      · cases rest with
        | nil => simp [mthrLoopRun] at hb
        | cons i2 r2 =>
          rw [mthrLoopRun_head] at hb
          injection hb with hb
          subst hb
          exact Or.inl rfl
      · exact ih _ p h
    | some v =>
      have hp' : p ∈ pairsL ({ st0 with chk := some i } ::
          { st0 with chk := some i, mthr := st0.mthr.set i (v : WithBot ℚ) } ::
          mthrLoopRun val rest
            { st0 with chk := some i, mthr := st0.mthr.set i (v : WithBot ℚ) }) := by
        simpa [mthrLoopRun, hv] using hp
      rcases pairsL_cons_cases _ _ _ hp' with ⟨b, hb, rfl⟩ | h
      · injection hb with hb
        subst hb
        exact Or.inr rfl
      rcases pairsL_cons_cases _ _ _ h with ⟨b, hb, rfl⟩ | h2
      · cases rest with
        | nil => simp [mthrLoopRun] at hb
        | cons i2 r2 =>
          rw [mthrLoopRun_head] at hb
          injection hb with hb
          subst hb
          exact Or.inl rfl
      · exact ih _ p h2

/-- The first durable state of a nonempty interpolant loop is the store
with the checkpoint set to the first pixel. -/
theorem interpLoopRun_head {V : Type} (col : ℕ → List (Option V)) (i : ℕ) (rest : List ℕ)
    (st : InterpStore V) :
    ((interpLoopRun col (i :: rest) st).1).head? = some { st with chk := some i } := by
  rw [interpLoopRun]
  split <;> rfl

/-- Dataset lookup after appending a freshly created dataset. -/
theorem dsLookup_append {V : Type} (vals : List (ℕ × List (Option V))) (i j : ℕ)
    (c : List (Option V)) :
    dsLookup (vals ++ [(i, c)]) j =
      ((dsLookup vals j).orElse fun _ => if j = i then some c else none) := by
  unfold dsLookup
  rw [List.find?_append]
  cases h : vals.find? fun p => decide (p.1 = j) with
  | some p => simp [h, Option.orElse]
  | none =>
    by_cases hij : j = i
    · subst hij
      simp [h, Option.orElse, List.find?]
    · have hji : ¬i = j := fun hh => hij hh.symm
      simp [h, Option.orElse, List.find?, hij, hji]

/-- Invariant of the interpolant loop: starting at pixel k on a store
holding exactly the datasets of the pixels below k with their final
contents, every durable state whose checkpoint reads c has the dataset
of every pixel below c present with its final contents. -/
theorem interpLoopRun_invariant {V : Type} (col : ℕ → List (Option V)) :
    ∀ (n k : ℕ) (st0 : InterpStore V),
      (∀ j, j < k → dsLookup st0.vals j = some (col j)) →
      (∀ j, k ≤ j → dsLookup st0.vals j = none) →
      ∀ st ∈ (interpLoopRun col (List.range' k n) st0).1, ∀ c, st.chk = some c →
        ∀ j, j < c → dsLookup st.vals j = some (col j) := by
  intro n
  induction n with
  | zero => intro k st0 _ _ st hst; simp [interpLoopRun] at hst
  | succ m ih =>
    intro k st0 hbelow habove st hst c hc j hj
    rw [List.range'_succ] at hst
    have hnone : dsLookup st0.vals k = none := habove k le_rfl
    have hst' : st ∈ ({ st0 with chk := some k } ::
        { st0 with chk := some k, vals := st0.vals ++ [(k, col k)] } ::
        (interpLoopRun col (List.range' (k + 1) m)
          { st0 with chk := some k, vals := st0.vals ++ [(k, col k)] }).1) := by
      simpa [interpLoopRun, hnone] using hst
    rcases List.mem_cons.mp hst' with rfl | hst2
    · simp only at hc
      cases hc
      exact hbelow j hj
    rcases List.mem_cons.mp hst2 with rfl | hmem
    · simp only at hc
      cases hc
      simp [dsLookup_append, hbelow j hj, Option.orElse]
    · exact ih (k + 1) _
        (fun j2 hj2 => by
          rcases Nat.lt_succ_iff_lt_or_eq.mp hj2 with h2 | rfl
          · simp [dsLookup_append, hbelow j2 h2, Option.orElse]
          · simp [dsLookup_append, hnone, Option.orElse])
        (fun j2 hj2 => by
          have : ¬j2 = k := by omega
          simp [dsLookup_append, habove j2 (by omega), Option.orElse, this]) st hmem c hc j hj

/-- Between adjacent durable states of the interpolant loop, either the
datasets are unchanged or the checkpoint is unchanged. -/
theorem interpLoopRun_adj {V : Type} (col : ℕ → List (Option V)) :
    ∀ (is : List ℕ) (st0 : InterpStore V),
      ∀ p ∈ pairsL (interpLoopRun col is st0).1,
        p.2.vals = p.1.vals ∨ p.1.chk = p.2.chk := by
  intro is
  induction is with
  | nil => intro st0 p hp; simp [interpLoopRun, pairsL] at hp
  | cons i rest ih =>
    intro st0 p hp
    by_cases hcol : (dsLookup st0.vals i).isSome
    · have hp' : p ∈ pairsL [{ st0 with chk := some i }] := by
        simpa [interpLoopRun, hcol] using hp
      simp [pairsL] at hp'
    · have hp' : p ∈ pairsL ({ st0 with chk := some i } ::
          { st0 with chk := some i, vals := st0.vals ++ [(i, col i)] } ::
          (interpLoopRun col rest
            { st0 with chk := some i, vals := st0.vals ++ [(i, col i)] }).1) := by
        simpa [interpLoopRun, hcol] using hp
      rcases pairsL_cons_cases _ _ _ hp' with ⟨b, hb, rfl⟩ | h
      · injection hb with hb
        subst hb
        exact Or.inr rfl
      rcases pairsL_cons_cases _ _ _ h with ⟨b, hb, rfl⟩ | h2
      · cases rest with
        | nil => simp [interpLoopRun] at hb
        | cons i2 r2 =>
          rw [interpLoopRun_head] at hb
          injection hb with hb
          subst hb
          exact Or.inl rfl
      · exact ih _ p h2

/-- C3 (amended): in both checkpointed loops the checkpoint attribute is
written at the start of pixel i, so the persisted counter reaches i + 1
only strictly after the result of pixel i is durable; consequently at
every reachable durable state the checkpoint never points past a pixel
whose result is missing: every pixel strictly below the checkpoint
already holds its final value. In the threshold loop a crash therefore
costs at worst the recomputation of the checkpoint pixel; in the
interpolant loop the corresponding recomputation attempt fails with a
dataset-exists error (see the counterexample), so recovery there is not
a harmless recomputation. -/
theorem checkpoint_invariant_spec (val : ℕ → Option ℚ) (npixels : ℕ)
    {V : Type} (col : ℕ → List (Option V)) (zg : List ℚ) :
    (∀ st ∈ calculate_mthr_trace val npixels, ∀ c, st.chk = some c →
       ∀ j, j < c → st.mthr.getD j ⊥ = mthrFinalEntry val j) ∧
    (∀ p ∈ pairsL (calculate_mthr_trace val npixels), ∀ i, p.1.chk = some i →
       p.2.chk = some (i + 1) → p.1.mthr.getD i ⊥ = mthrFinalEntry val i) ∧
    (∀ st ∈ (calc_interpolant_fresh col zg npixels).1, ∀ c, st.chk = some c →
       ∀ j, j < c → dsLookup st.vals j = some (col j)) ∧
    (∀ p ∈ pairsL (calc_interpolant_fresh col zg npixels).1, ∀ i, p.1.chk = some i →
       p.2.chk = some (i + 1) → dsLookup p.1.vals i = some (col i)) := by
  have habove0 : ∀ j, 0 ≤ j → (mthrFreshStore npixels).mthr.getD j ⊥ = ⊥ := by
    intro j _
    simp only [mthrFreshStore, List.getD_eq_getElem?_getD, List.getElem?_replicate]
    split <;> rfl
  have hmthrInv : ∀ st ∈ calculate_mthr_trace val npixels, ∀ c, st.chk = some c →
      ∀ j, j < c → st.mthr.getD j ⊥ = mthrFinalEntry val j := by
    intro st hst
    exact mthrLoopRun_invariant val npixels npixels 0 (mthrFreshStore npixels)
      (by simp [mthrFreshStore]) (by omega)
      (fun j hj => absurd hj (Nat.not_lt_zero j)) habove0 st hst
  have hinterpTrace : (calc_interpolant_fresh col zg npixels).1 =
      ((⟨none, some zg, none, []⟩ : InterpStore V) ::
       (⟨none, some zg, some (List.range npixels), []⟩ : InterpStore V) ::
       (interpLoopRun col (List.range' 0 (npixels - 0))
         (⟨none, some zg, some (List.range npixels), []⟩ : InterpStore V)).1) := by
    simp [calc_interpolant_fresh, interpPass, interpFreshStore]
  have hinterpInv : ∀ st ∈ (calc_interpolant_fresh col zg npixels).1, ∀ c,
      st.chk = some c → ∀ j, j < c → dsLookup st.vals j = some (col j) := by
    intro st hst c hc j hj
    rw [hinterpTrace] at hst
    rcases List.mem_cons.mp hst with rfl | hst2
    · simp at hc
    rcases List.mem_cons.mp hst2 with rfl | hmem
    · simp at hc
    · exact interpLoopRun_invariant col (npixels - 0) 0
        (⟨none, some zg, some (List.range npixels), []⟩ : InterpStore V)
        (fun j2 hj2 => absurd hj2 (Nat.not_lt_zero j2)) (fun j2 _ => rfl)
        st hmem c hc j hj
  refine ⟨hmthrInv, ?_, hinterpInv, ?_⟩
  · intro p hp i h1 h2
    rcases mthrLoopRun_adj val (List.range' 0 npixels) (mthrFreshStore npixels) p hp
      with heq | hsame
    · rw [← heq]
      exact hmthrInv p.2 (pairsL_mem_right _ p hp) (i + 1) h2 i (by omega)
    · rw [h1, h2] at hsame
      injection hsame with hsame
      omega
  · intro p hp i h1 h2
    rw [hinterpTrace] at hp
    rcases pairsL_cons_cases _ _ _ hp with ⟨b, _, rfl⟩ | hp2
    · simp at h1
    rcases pairsL_cons_cases _ _ _ hp2 with ⟨b, _, rfl⟩ | hp3
    · simp at h1
    rcases interpLoopRun_adj col (List.range' 0 (npixels - 0)) _ p hp3 with heq | hsame
    · rw [← heq]
      exact interpLoopRun_invariant col (npixels - 0) 0
        (⟨none, some zg, some (List.range npixels), []⟩ : InterpStore V)
        (fun j2 hj2 => absurd hj2 (Nat.not_lt_zero j2)) (fun j2 _ => rfl)
        p.2 (pairsL_mem_right _ p hp3) (i + 1) h2 i (by omega)
    · rw [h1, h2] at hsame
      injection hsame with hsame
      omega

/-- Counterexample for C3 as stated: a crash between the dataset write
of pixel zero and the next checkpoint advance leaves a reachable state
of the uninterrupted run from which resuming does not recompute that
one pixel: it immediately fails with a dataset-exists error while
re-creating the z_grid dataset, making no progress at all. -/
theorem interp_resume_at_written_pixel_errors :
    ((⟨some 0, some [0, 1], some [0, 1], [(0, [some (1 : ℚ)])]⟩ : InterpStore ℚ) ∈
      (calc_interpolant_fresh (fun _ => [some (1 : ℚ)]) [0, 1] 2).1) ∧
    calc_interpolant_resume (fun _ => [some (1 : ℚ)]) [0, 1] 2
      ⟨some 0, some [0, 1], some [0, 1], [(0, [some (1 : ℚ)])]⟩ =
        ([], .error .datasetExists) := by
  decide

/-- Witness for C3: a concrete two pixel threshold run; at the durable
state with checkpoint one, entry zero already holds its final value. -/
theorem checkpoint_invariant_spec_witness :
    (⟨some 1, [(5 : WithBot ℚ), ⊥]⟩ : MthrStore).mthr.getD 0 ⊥ =
      mthrFinalEntry (fun j => if j = 0 then some 5 else none) 0 :=
  (checkpoint_invariant_spec (fun j => if j = 0 then some 5 else none) 2
    (V := ℚ) (fun _ => []) []).1
    ⟨some 1, [(5 : WithBot ℚ), ⊥]⟩ (by decide) 1 rfl 0 (by decide)

/-- Trapezoid integration of identically zero samples is zero. -/
theorem trapzR_eq_zero : ∀ (ys xs : List ℝ), (∀ y ∈ ys, y = 0) → trapzR ys xs = 0
  | y1 :: y2 :: ys, x1 :: x2 :: xs, h => by
    rw [trapzR,
      trapzR_eq_zero (y2 :: ys) (x2 :: xs) (fun y hy => h y (List.mem_cons_of_mem y1 hy)),
      h y1 (by simp), h y2 (by simp)]
    ring
  | [], _, _ => by simp [trapzR]
  | [_], _, _ => by simp [trapzR]
  | _ :: _ :: _, [], _ => by simp [trapzR]
  | _ :: _ :: _, [_], _ => by simp [trapzR]

/-- With the identically zero cosmology, the normalization integral of
mode gaussian vanishes: every sampled value carries the zero comoving
volume density factor. -/
theorem EM_normfact_cosmoZero (zobs sigmaz a b : ℝ) :
    EM_normfact true cosmoZero zobs sigmaz a b = 0 := by
  unfold EM_normfact
  rw [if_pos rfl]
  apply trapzR_eq_zero
  intro y hy
  obtain ⟨zp, _, rfl⟩ := List.mem_map.mp hy
  show cosmoZero.dVc_by_dzdOmega_at_z zp * user_normal zp zobs sigmaz = 0
  simp [cosmoZero]

/-- Counterexample for C1 as stated: in mode gaussian with sigmaz zero
(a case where the would-be normalization integral over the auxiliary
grid is zero, second conjunct) the function silently returns the
all-zero array instead of raising: the degenerate upper bound
zobs + 5 sigmaz is not above the lower bound, so the early return fires
before the normalization is ever attempted. -/
theorem EM_gaussian_sigmaz_zero_returns_zeros :
    EM_likelihood_prior_differential_volume [1/2] (1/2) 0 cosmoZero 1 "gaussian" =
      .ok [0] ∧
    EM_normfact true cosmoZero (1/2) 0 (max (1/1000000) (1/2 - 1 * 0)) (1/2 + 5 * 0) = 0 := by
  constructor
  · unfold EM_likelihood_prior_differential_volume
    rw [if_neg (by decide), if_pos rfl, if_pos (by norm_num [le_max_iff])]
    simp
  · exact EM_normfact_cosmoZero (1/2) 0 _ _

/-- C1 (amended): in mode gaussian or gaussian_nocom, whenever the
normalization step is reached (the lower integration bound is strictly
below zobs + 5 sigmaz) and the normalization integral over the
auxiliary grid evaluates to zero, the function raises the hard
normalization error and does not return a zero result; however, when
zobs + 5 sigmaz does not exceed the lower bound — as always happens for
sigmaz equal to zero — the function silently returns an all-zero array
without attempting normalization (see the counterexample). Over the
real numbers the not-a-number case of the source cannot arise. -/
theorem EM_gaussian_normfact_zero_raises (z : List ℝ) (zobs sigmaz : ℝ)
    (cosmology : CosmologyR) (Numsigma : ℝ) (ptype : String)
    (hpt : ptype = "gaussian" ∨ ptype = "gaussian_nocom")
    (hlt : max (1 / 1000000) (zobs - Numsigma * sigmaz) < zobs + 5 * sigmaz)
    (h0 : EM_normfact (decide (ptype = "gaussian")) cosmology zobs sigmaz
        (max (1 / 1000000) (zobs - Numsigma * sigmaz)) (zobs + 5 * sigmaz) = 0) :
    EM_likelihood_prior_differential_volume z zobs sigmaz cosmology Numsigma ptype =
      .error (.valueErr "Normalization failed") := by
  rcases hpt with rfl | rfl
  · have h0' : EM_normfact true cosmology zobs sigmaz
        (max (1 / 1000000) (zobs - Numsigma * sigmaz)) (zobs + 5 * sigmaz) = 0 := by
      simpa using h0
    unfold EM_likelihood_prior_differential_volume
    rw [if_neg (by decide), if_pos rfl, if_neg (not_le.mpr hlt), if_pos h0']
  · have h0' : EM_normfact false cosmology zobs sigmaz
        (max (1 / 1000000) (zobs - Numsigma * sigmaz)) (zobs + 5 * sigmaz) = 0 := by
      simpa using h0
    unfold EM_likelihood_prior_differential_volume
    rw [if_neg (by decide), if_neg (by decide), if_pos rfl, if_neg (not_le.mpr hlt),
      if_pos h0']

/-- Witness for C1: a gaussian kernel inside the range, with the
identically zero cosmology making the normalization integral vanish;
the function raises. -/
theorem EM_gaussian_normfact_zero_raises_witness :
    EM_likelihood_prior_differential_volume [] (1/2) (1/100) cosmoZero 5 "gaussian" =
      .error (.valueErr "Normalization failed") :=
  EM_gaussian_normfact_zero_raises [] (1/2) (1/100) cosmoZero 5 "gaussian"
    (Or.inl rfl) (by norm_num [max_lt_iff]) (by simpa using EM_normfact_cosmoZero (1/2) (1/100) _ _)

unseal Rat.add Rat.mul Rat.sub Rat.inv in
/-- Counterexample for C6 as stated: one galaxy whose support window is
the whole interval from 1e-6 to zcut equal to one, with base resolution
three. The final grid is the three evenly spaced points, whose
consecutive spacing is the window width over two; the claimed bound,
the window width divided by the base resolution three, is violated. -/
theorem calc_zgrid_spacing_counterexample :
    ((1/1000000 : ℚ), (1000001/2000000 : ℚ)) ∈
        pairsL (calc_zgrid [⟨1/2, 7/10, 0, 0, 0⟩] 1 1 3) ∧
    zminOf 1 ⟨1/2, 7/10, 0, 0, 0⟩ ≤ 1/1000000 ∧
    (1000001/2000000 : ℚ) ≤ zmaxOf 1 1 ⟨1/2, 7/10, 0, 0, 0⟩ ∧
    ¬((1000001/2000000 : ℚ) - 1/1000000 ≤
        (zmaxOf 1 1 ⟨1/2, 7/10, 0, 0, 0⟩ - zminOf 1 ⟨1/2, 7/10, 0, 0, 0⟩) / 3) := by
  decide

/-- The pruning pass returns the list unchanged on fewer than three
elements. -/
theorem pruneOdd_short (delta : ℚ) (l : List ℚ)
    (h : ∀ (a b c : ℚ) (rest : List ℚ), l = a :: b :: c :: rest → False) :
    pruneOdd delta l = l := by
  match l, h with
  | [], _ => rfl
  | [a], _ => rfl
  | [a, b], _ => rfl
  | a :: b :: c :: rest, h => exact absurd rfl (h a b c rest)

/-- The pruning pass yields a sublist. -/
theorem pruneOdd_sublist (delta : ℚ) (l : List ℚ) : (pruneOdd delta l).Sublist l := by
  induction l using pruneOdd.induct delta with
  | case1 a b c rest hlt ih =>
    rw [pruneOdd, if_pos hlt]
    exact (ih.cons₂ a).trans ((List.sublist_cons_self b (c :: rest)).cons₂ a)
  | case2 a b c rest hlt ih =>
    rw [pruneOdd, if_neg hlt]
    exact (ih.cons₂ b).cons₂ a
  | case3 l h => rw [pruneOdd_short delta l h]

/-- The pruning pass keeps the head. -/
theorem pruneOdd_head? (delta : ℚ) (l : List ℚ) : (pruneOdd delta l).head? = l.head? := by
  induction l using pruneOdd.induct delta with
  | case1 a b c rest hlt _ => rw [pruneOdd, if_pos hlt]; rfl
  | case2 a b c rest hlt _ => rw [pruneOdd, if_neg hlt]; rfl
  | case3 l h => rw [pruneOdd_short delta l h]

/-- The pruning pass never empties a nonempty list. -/
theorem pruneOdd_ne_nil (delta a : ℚ) (l : List ℚ) : pruneOdd delta (a :: l) ≠ [] := by
  intro h
  have hh := pruneOdd_head? delta (a :: l)
  rw [h] at hh
  simp at hh

/-- The last element of a cons is the last element of the nonempty
tail. -/
theorem getLast?_cons_of_ne_nil {α : Type} (a : α) (l : List α) (hl : l ≠ []) :
    (a :: l).getLast? = l.getLast? := by
  cases l with
  | nil => exact absurd rfl hl
  | cons b t => exact List.getLast?_cons_cons

/-- The pruning pass keeps the last element. -/
theorem pruneOdd_getLast? (delta : ℚ) (l : List ℚ) :
    (pruneOdd delta l).getLast? = l.getLast? := by
  induction l using pruneOdd.induct delta with
  | case1 a b c rest hlt ih =>
    rw [pruneOdd, if_pos hlt,
      getLast?_cons_of_ne_nil a _ (pruneOdd_ne_nil delta c rest), ih,
      List.getLast?_cons_cons, List.getLast?_cons_cons]
  | case2 a b c rest hlt ih =>
    rw [pruneOdd, if_neg hlt,
      getLast?_cons_of_ne_nil a _ (by simp),
      getLast?_cons_of_ne_nil b _ (pruneOdd_ne_nil delta c rest), ih,
      List.getLast?_cons_cons, List.getLast?_cons_cons]
  | case3 l h => rw [pruneOdd_short delta l h]

/-- Any adjacent pair of the pruned list is an adjacent pair of the
input, or has gap strictly below delta (a gap created by deleting the
odd-position point between two even-position points closer than
delta). -/
theorem pruneOdd_pairs (delta : ℚ) (l : List ℚ) :
    ∀ p ∈ pairsL (pruneOdd delta l), p ∈ pairsL l ∨ p.2 - p.1 < delta := by
  induction l using pruneOdd.induct delta with
  | case1 a b c rest hlt ih =>
    intro p hp
    rw [pruneOdd, if_pos hlt] at hp
    rcases pairsL_cons_cases _ _ _ hp with ⟨d, hd, rfl⟩ | h
    · rw [pruneOdd_head?] at hd
      injection hd with hd
      subst hd
      exact Or.inr hlt
    · rcases ih p h with hin | hgap
      · exact Or.inl (show p ∈ (a, b) :: (b, c) :: pairsL (c :: rest) from
          List.mem_cons_of_mem _ (List.mem_cons_of_mem _ hin))
      · exact Or.inr hgap
  | case2 a b c rest hlt ih =>
    intro p hp
    rw [pruneOdd, if_neg hlt] at hp
    rcases pairsL_cons_cases _ _ _ hp with ⟨d, hd, rfl⟩ | h
    · injection hd with hd
      subst hd
      exact Or.inl (show (a, b) ∈ (a, b) :: (b, c) :: pairsL (c :: rest) from
        List.mem_cons_self _ _)
    rcases pairsL_cons_cases _ _ _ h with ⟨d, hd, rfl⟩ | h2
    · rw [pruneOdd_head?] at hd
      injection hd with hd
      subst hd
      exact Or.inl (show (b, c) ∈ (a, b) :: (b, c) :: pairsL (c :: rest) from
        List.mem_cons_of_mem _ (List.mem_cons_self _ _))
    · rcases ih p h2 with hin | hgap
      · exact Or.inl (show p ∈ (a, b) :: (b, c) :: pairsL (c :: rest) from
          List.mem_cons_of_mem _ (List.mem_cons_of_mem _ hin))
      · exact Or.inr hgap
  | case3 l h =>
    intro p hp
    rw [pruneOdd_short delta l h] at hp
    exact Or.inl hp

/-- Deduplication returns the list unchanged on fewer than two
elements. -/
theorem dedupSorted_short (l : List ℚ)
    (h : ∀ (a b : ℚ) (rest : List ℚ), l = a :: b :: rest → False) :
    dedupSorted l = l := by
  match l, h with
  | [], _ => rfl
  | [a], _ => rfl
  | a :: b :: rest, h => exact absurd rfl (h a b rest)

/-- Deduplication yields a sublist. -/
theorem dedupSorted_sublist (l : List ℚ) : (dedupSorted l).Sublist l := by
  induction l using dedupSorted.induct with
  | case1 a rest ih =>
    rw [dedupSorted, if_pos rfl]
    exact ih.trans (List.sublist_cons_self a (a :: rest))
  | case2 a b rest hne ih =>
    rw [dedupSorted, if_neg hne]
    exact ih.cons₂ a
  | case3 l h => rw [dedupSorted_short l h]

/-- Deduplication keeps the head value. -/
theorem dedupSorted_head? (l : List ℚ) : (dedupSorted l).head? = l.head? := by
  induction l using dedupSorted.induct with
  | case1 a rest ih =>
    rw [dedupSorted, if_pos rfl, ih]
    rfl
  | case2 a b rest hne _ => rw [dedupSorted, if_neg hne]; rfl
  | case3 l h => rw [dedupSorted_short l h]

/-- Deduplication never empties a nonempty list. -/
theorem dedupSorted_ne_nil (a : ℚ) (l : List ℚ) : dedupSorted (a :: l) ≠ [] := by
  intro h
  have hh := dedupSorted_head? (a :: l)
  rw [h] at hh
  simp at hh

/-- Deduplication keeps the last value. -/
theorem dedupSorted_getLast? (l : List ℚ) : (dedupSorted l).getLast? = l.getLast? := by
  induction l using dedupSorted.induct with
  | case1 a rest ih =>
    rw [dedupSorted, if_pos rfl, ih]
    exact (getLast?_cons_of_ne_nil a (a :: rest) (by simp)).symm
  | case2 a b rest hne ih =>
    rw [dedupSorted, if_neg hne,
      getLast?_cons_of_ne_nil a _ (dedupSorted_ne_nil b rest), ih,
      getLast?_cons_of_ne_nil a _ (by simp)]
  | case3 l h => rw [dedupSorted_short l h]

/-- Any adjacent pair of the deduplicated list is an adjacent pair of
the input. -/
theorem dedupSorted_pairs (l : List ℚ) :
    ∀ p ∈ pairsL (dedupSorted l), p ∈ pairsL l := by
  induction l using dedupSorted.induct with
  | case1 a rest ih =>
    intro p hp
    rw [dedupSorted, if_pos rfl] at hp
    exact List.mem_cons_of_mem _ (ih p hp)
  | case2 a b rest hne ih =>
    intro p hp
    rw [dedupSorted, if_neg hne] at hp
    rcases pairsL_cons_cases _ _ _ hp with ⟨d, hd, rfl⟩ | h
    · rw [dedupSorted_head?] at hd
      injection hd with hd
      subst hd
      exact List.mem_cons_self _ _
    · exact List.mem_cons_of_mem _ (ih p h)
  | case3 l h =>
    intro p hp
    rw [dedupSorted_short l h] at hp
    exact hp

/-- Deduplicating a nondecreasing list yields a strictly increasing
list. -/
theorem dedupSorted_sorted_lt (l : List ℚ) (hs : l.Sorted (· ≤ ·)) :
    (dedupSorted l).Sorted (· < ·) := by
  induction l using dedupSorted.induct with
  | case1 a rest ih =>
    rw [dedupSorted, if_pos rfl]
    exact ih (List.sorted_cons.mp hs).2
  | case2 a b rest hne ih =>
    rw [dedupSorted, if_neg hne]
    rw [List.sorted_cons]
    refine ⟨fun x hx => ?_, ih (List.sorted_cons.mp hs).2⟩
    have hxm : x ∈ b :: rest := dedupSorted_sublist (b :: rest) |>.mem hx
    have hab : a ≤ b := (List.sorted_cons.mp hs).1 b (List.mem_cons_self _ _)
    have hbx : b ≤ x := by
      rcases List.mem_cons.mp hxm with rfl | hxr
      · exact le_refl x
      · exact (List.sorted_cons.mp (List.sorted_cons.mp hs).2).1 x hxr
    exact lt_of_lt_of_le (lt_of_le_of_ne hab hne) hbx
  | case3 l h =>
    rw [dedupSorted_short l h]
    match l, h with
    | [], _ => exact List.sorted_nil
    | [a], _ => exact List.sorted_singleton a
    | a :: b :: rest, h => exact absurd rfl (h a b rest)

/-- The sort is sorted. -/
theorem sortQ_sorted (l : List ℚ) : (sortQ l).Sorted (· ≤ ·) :=
  List.sorted_insertionSort (· ≤ ·) l

/-- Sorting preserves membership. -/
theorem sortQ_mem (l : List ℚ) (x : ℚ) : x ∈ sortQ l ↔ x ∈ l :=
  (List.perm_insertionSort (· ≤ ·) l).mem_iff

/-- Sorting a sorted list changes nothing. -/
theorem sortQ_eq_of_sorted (l : List ℚ) (hs : l.Sorted (· ≤ ·)) : sortQ l = l :=
  hs.insertionSort_eq

/-- The first component of an adjacent pair is a member of the list. -/
theorem pairsL_mem_left {α : Type} (l : List α) (p : α × α) (hp : p ∈ pairsL l) :
    p.1 ∈ l := by
  obtain ⟨a, b⟩ := p
  exact (List.of_mem_zip hp).1

/-- In a sorted list, every element lies on one side of any adjacent
pair. -/
theorem sorted_pairs_cover (l : List ℚ) (hs : l.Sorted (· ≤ ·)) (p : ℚ × ℚ)
    (hp : p ∈ pairsL l) : ∀ x ∈ l, x ≤ p.1 ∨ p.2 ≤ x := by
  induction l with
  | nil => simp [pairsL] at hp
  | cons c t ih =>
    rcases pairsL_cons_cases _ _ _ hp with ⟨d, hd, rfl⟩ | h
    · intro x hx
      rcases List.mem_cons.mp hx with rfl | hxt
      · exact Or.inl le_rfl
      · right
        cases t with
        | nil => simp at hd
        | cons e t2 =>
          injection hd with hd
          subst hd
          rcases List.mem_cons.mp hxt with rfl | hxr
          · exact le_rfl
          · exact List.rel_of_sorted_cons (List.sorted_cons.mp hs).2 x hxr
    · intro x hx
      rcases List.mem_cons.mp hx with rfl | hxt
      · exact Or.inl ((List.sorted_cons.mp hs).1 p.1 (pairsL_mem_left t p h))
      · exact ih (List.sorted_cons.mp hs).2 h x hxt

/-- In a sorted list containing a point at most a and a point at least
b, with no point strictly between a and b, some adjacent pair encloses
the interval from a to b. -/
theorem pair_of_gap (l : List ℚ) (hs : l.Sorted (· ≤ ·)) (a b : ℚ) (hab : a < b)
    (u : ℚ) (hu : u ∈ l) (hua : u ≤ a) (v : ℚ) (hv : v ∈ l) (hbv : b ≤ v)
    (hmid : ∀ x ∈ l, ¬(a < x ∧ x < b)) :
    ∃ p ∈ pairsL l, p.1 ≤ a ∧ b ≤ p.2 := by
  induction l generalizing u with
  | nil => simp at hu
  | cons c t ih =>
    have hcu : c ≤ u := by
      rcases List.mem_cons.mp hu with rfl | hut
      · exact le_rfl
      · exact (List.sorted_cons.mp hs).1 u hut
    have hvt : v ∈ t := by
      rcases List.mem_cons.mp hv with rfl | hvt
      · exact absurd (le_trans hbv (le_trans hcu hua)) (not_le.mpr hab)
      · exact hvt
    cases t with
    | nil => simp at hvt
    | cons e t2 =>
      by_cases hea : e ≤ a
      · obtain ⟨p, hp, hpa, hpb⟩ := ih (List.sorted_cons.mp hs).2 e
          (List.mem_cons_self _ _) hea hvt
          (fun x hx => hmid x (List.mem_cons_of_mem c hx))
        exact ⟨p, List.mem_cons_of_mem _ hp, hpa, hpb⟩
      · have heb : b ≤ e := by
          by_contra hc
          exact hmid e (List.mem_cons_of_mem c (List.mem_cons_self _ _))
            ⟨not_le.mp hea, not_le.mp hc⟩
        exact ⟨(c, e), List.mem_cons_self _ _, le_trans hcu hua, heb⟩

/-- Transfer of an enclosing adjacent pair from a sorted superset to a
sorted subset that still brackets the gap. -/
theorem gap_transfer (l l2 : List ℚ) (hs : l.Sorted (· ≤ ·)) (hs2 : l2.Sorted (· ≤ ·))
    (hsub : ∀ x ∈ l, x ∈ l2) (p : ℚ × ℚ) (hp : p ∈ pairsL l2) (hab : p.1 < p.2)
    (u : ℚ) (hu : u ∈ l) (hua : u ≤ p.1) (v : ℚ) (hv : v ∈ l) (hbv : p.2 ≤ v) :
    ∃ q ∈ pairsL l, q.1 ≤ p.1 ∧ p.2 ≤ q.2 := by
  apply pair_of_gap l hs p.1 p.2 hab u hu hua v hv hbv
  intro x hx ⟨h1, h2⟩
  rcases sorted_pairs_cover l2 hs2 p hp x (hsub x hx) with h | h
  · exact absurd (lt_of_le_of_lt h h1) (lt_irrefl x)
  · exact absurd (lt_of_lt_of_le h2 h) (lt_irrefl x)

/-- Adjacent pairs of a mapped list are the mapped adjacent pairs. -/
theorem pairsL_map {α β : Type} (f : α → β) (l : List α) :
    pairsL (l.map f) = (pairsL l).map fun q => (f q.1, f q.2) := by
  unfold pairsL
  rw [← List.map_tail, List.zip_map]
  rfl

/-- Adjacent pairs of a range are successive numbers. -/
theorem pairsL_range : ∀ (n : ℕ), ∀ p ∈ pairsL (List.range n), p.2 = p.1 + 1 := by
  intro n
  induction n with
  | zero => intro p hp; simp [pairsL] at hp
  | succ m ih =>
    intro p hp
    rw [List.range_succ_eq_map] at hp
    rcases pairsL_cons_cases _ _ _ hp with ⟨d, hd, rfl⟩ | h
    · cases m with
      | zero => simp at hd
      | succ m2 =>
        rw [List.range_succ_eq_map, List.map_cons] at hd
        injection hd with hd
        subst hd
        rfl
    · rw [pairsL_map] at h
      obtain ⟨q, hq, rfl⟩ := List.mem_map.mp h
      simpa using congrArg Nat.succ (ih q hq)

/-- The gap between adjacent points of a linspace is the step. -/
theorem linspaceQ_pairs_gap (a b : ℚ) (n : ℕ) :
    ∀ p ∈ pairsL (linspaceQ a b n), p.2 - p.1 = (b - a) / ((n : ℚ) - 1) := by
  intro p hp
  rw [linspaceQ,
    pairsL_map (fun (i : ℕ) => a + (i : ℚ) * (b - a) / ((n : ℚ) - 1)) (List.range n)] at hp
  obtain ⟨q, hq, rfl⟩ := List.mem_map.mp hp
  have hsucc := pairsL_range n q hq
  rw [hsucc]
  push_cast
  ring

/-- Linspace points are sorted when the endpoints are ordered. -/
theorem linspaceQ_sorted (a b : ℚ) (n : ℕ) (hab : a ≤ b) :
    (linspaceQ a b n).Sorted (· ≤ ·) := by
  unfold linspaceQ List.Sorted
  rw [List.pairwise_map]
  apply List.Pairwise.imp_of_mem ?_ (List.pairwise_lt_range n)
  intro i j hi hj hij
  have hjn : j < n := List.mem_range.mp hj
  have hn2 : 2 ≤ n := by omega
  have hd : (0 : ℚ) < (n : ℚ) - 1 := by
    have h2 : (2 : ℚ) ≤ (n : ℚ) := by exact_mod_cast hn2
    linarith
  have hij2 : (i : ℚ) ≤ (j : ℚ) := by exact_mod_cast Nat.le_of_lt hij
  have hstep : (0 : ℚ) ≤ (b - a) / ((n : ℚ) - 1) := div_nonneg (by linarith) (le_of_lt hd)
  have hmul := mul_le_mul_of_nonneg_right hij2 hstep
  calc a + (i : ℚ) * (b - a) / ((n : ℚ) - 1)
      = a + (i : ℚ) * ((b - a) / ((n : ℚ) - 1)) := by ring
    _ ≤ a + (j : ℚ) * ((b - a) / ((n : ℚ) - 1)) := by linarith
    _ = a + (j : ℚ) * (b - a) / ((n : ℚ) - 1) := by ring

/-- The first linspace point is the lower endpoint. -/
theorem linspaceQ_head? (a b : ℚ) (n : ℕ) (hn : 1 ≤ n) :
    (linspaceQ a b n).head? = some a := by
  cases n with
  | zero => omega
  | succ m =>
    rw [linspaceQ, List.range_succ_eq_map, List.map_cons]
    simp

/-- The last linspace point is the upper endpoint. -/
theorem linspaceQ_getLast? (a b : ℚ) (n : ℕ) (hn : 2 ≤ n) :
    (linspaceQ a b n).getLast? = some b := by
  cases n with
  | zero => omega
  | succ m =>
    rw [linspaceQ, List.getLast?_map, List.range_succ, List.getLast?_concat]
    have hm : (m : ℚ) ≠ 0 := by
      have h1 : 1 ≤ m := by omega
      have h2 : (1 : ℚ) ≤ (m : ℚ) := by exact_mod_cast h1
      intro hc
      linarith
    simp only [Option.map_some']
    congr 1
    push_cast
    field_simp

/-- Every linspace point lies between the endpoints. -/
theorem linspaceQ_mem_bounds (a b : ℚ) (n : ℕ) (hab : a ≤ b) :
    ∀ x ∈ linspaceQ a b n, a ≤ x ∧ x ≤ b := by
  intro x hx
  rw [linspaceQ] at hx
  obtain ⟨i, hi, rfl⟩ := List.mem_map.mp hx
  have hin : i < n := List.mem_range.mp hi
  have hn2 : 1 ≤ n := by omega
  rcases Nat.lt_or_ge i 1 with h1 | h1
  · have hi0 : i = 0 := by omega
    subst hi0
    constructor
    · simp
    · simp [hab]
  · have hn2 : 2 ≤ n := by omega
    have hd : (0 : ℚ) < (n : ℚ) - 1 := by
      have h2 : (2 : ℚ) ≤ (n : ℚ) := by exact_mod_cast hn2
      linarith
    constructor
    · exact le_add_of_nonneg_right
        (div_nonneg (mul_nonneg (Nat.cast_nonneg i) (by linarith)) (le_of_lt hd))
    · have hin2 : (i : ℚ) ≤ (n : ℚ) - 1 := by
        have : (i : ℚ) + 1 ≤ (n : ℚ) := by exact_mod_cast Nat.succ_le_of_lt hin
        linarith
      have h2 : (i : ℚ) * (b - a) ≤ (b - a) * ((n : ℚ) - 1) := by
        calc (i : ℚ) * (b - a) = (b - a) * (i : ℚ) := by ring
          _ ≤ (b - a) * ((n : ℚ) - 1) := mul_le_mul_of_nonneg_left hin2 (by linarith)
      have h3 : (i : ℚ) * (b - a) / ((n : ℚ) - 1) ≤ b - a := by
        rw [div_le_iff hd]
        linarith
      linarith

/-- A sorted list whose minimum is m has head m. -/
theorem sorted_head?_eq (l : List ℚ) (hs : l.Sorted (· ≤ ·)) (m : ℚ) (hm : m ∈ l)
    (hlow : ∀ x ∈ l, m ≤ x) : l.head? = some m := by
  cases l with
  | nil => simp at hm
  | cons c t =>
    have h1 : m ≤ c := hlow c (List.mem_cons_self _ _)
    have h2 : c ≤ m := by
      rcases List.mem_cons.mp hm with rfl | hmt
      · exact le_rfl
      · exact (List.sorted_cons.mp hs).1 m hmt
    simp [le_antisymm h2 h1]

/-- A sorted list whose maximum is m has last element m. -/
theorem sorted_getLast?_eq (l : List ℚ) (hs : l.Sorted (· ≤ ·)) (m : ℚ) (hm : m ∈ l)
    (hhigh : ∀ x ∈ l, x ≤ m) : l.getLast? = some m := by
  induction l with
  | nil => simp at hm
  | cons c t ih =>
    cases t with
    | nil =>
      rcases List.mem_cons.mp hm with rfl | h
      · rfl
      · simp at h
    | cons d t2 =>
      rw [List.getLast?_cons_cons]
      apply ih (List.sorted_cons.mp hs).2 ?_
        (fun x hx => hhigh x (List.mem_cons_of_mem c hx))
      rcases List.mem_cons.mp hm with rfl | hmt
      · have h1 : m ≤ d := (List.sorted_cons.mp hs).1 d (List.mem_cons_self _ _)
        have h2 : d ≤ m := hhigh d (List.mem_cons_of_mem _ (List.mem_cons_self _ _))
        exact le_antisymm h2 h1 ▸ List.mem_cons_self d t2
      · exact hmt

/-- Adjacent pairs of a sorted list are ordered. -/
theorem pairs_sorted_le (l : List ℚ) (hs : l.Sorted (· ≤ ·)) :
    ∀ p ∈ pairsL l, p.1 ≤ p.2 := by
  induction l with
  | nil => intro p hp; simp [pairsL] at hp
  | cons c t ih =>
    intro p hp
    rcases pairsL_cons_cases _ _ _ hp with ⟨d, hd, rfl⟩ | h
    · exact (List.sorted_cons.mp hs).1 d (List.mem_of_mem_head? hd)
    · exact ih (List.sorted_cons.mp hs).2 p h

/-- Membership bound for the merged grid of one loop iteration. -/
theorem merged_bound (zcut : ℚ) (l : List ℚ) (zmin zmax : ℚ) (N : ℕ)
    (hbound : ∀ x ∈ l, 1/1000000 ≤ x ∧ x ≤ zcut)
    (h1 : 1/1000000 ≤ zmin) (h2 : zmin ≤ zmax) (h3 : zmax ≤ zcut) :
    ∀ x ∈ sortQ (l ++ linspaceQ zmin zmax N), 1/1000000 ≤ x ∧ x ≤ zcut := by
  intro x hx
  rw [sortQ_mem, List.mem_append] at hx
  rcases hx with hx | hx
  · exact hbound x hx
  · obtain ⟨hlo, hhi⟩ := linspaceQ_mem_bounds zmin zmax N h2 x hx
    exact ⟨le_trans h1 hlo, le_trans hhi h3⟩

/-- One loop iteration preserves the well-formedness of the grid. -/
theorem grid_step_good (Numsigma zcut : ℚ) (N : ℕ) (l : List ℚ) (g : Galaxy)
    (hg : GoodGrid zcut l)
    (h1 : 1/1000000 ≤ zminOf Numsigma g)
    (h2 : zminOf Numsigma g ≤ zmaxOf Numsigma zcut g)
    (h3 : zmaxOf Numsigma zcut g ≤ zcut) :
    GoodGrid zcut (grid_step Numsigma zcut N l g) := by
  obtain ⟨hs, hmem1, hmem2, hbound⟩ := hg
  rw [grid_step]
  have hms : (sortQ (l ++ linspaceQ (zminOf Numsigma g) (zmaxOf Numsigma zcut g) N)).Sorted
      (· ≤ ·) := sortQ_sorted _
  have hmb := merged_bound zcut l (zminOf Numsigma g) (zmaxOf Numsigma zcut g) N
    hbound h1 h2 h3
  have hm1 : (1/1000000 : ℚ) ∈ sortQ (l ++ linspaceQ (zminOf Numsigma g)
      (zmaxOf Numsigma zcut g) N) := by
    rw [sortQ_mem, List.mem_append]
    exact Or.inl hmem1
  have hm2 : zcut ∈ sortQ (l ++ linspaceQ (zminOf Numsigma g)
      (zmaxOf Numsigma zcut g) N) := by
    rw [sortQ_mem, List.mem_append]
    exact Or.inl hmem2
  have hps : ∀ delta, (pruneOdd delta (sortQ (l ++ linspaceQ (zminOf Numsigma g)
      (zmaxOf Numsigma zcut g) N))).Sorted (· ≤ ·) :=
    fun delta => List.Pairwise.sublist (pruneOdd_sublist delta _) hms
  refine ⟨hps _, ?_, ?_, ?_⟩
  · apply List.mem_of_mem_head?
    rw [pruneOdd_head?, sorted_head?_eq _ hms (1/1000000) hm1 (fun x hx => (hmb x hx).1)]
    rfl
  · apply List.mem_of_mem_getLast?
    rw [pruneOdd_getLast?, sorted_getLast?_eq _ hms zcut hm2 (fun x hx => (hmb x hx).2)]
    rfl
  · intro x hx
    exact hmb x ((pruneOdd_sublist _ _).mem hx)

/-- After merging and pruning the points of a galaxy, the grid resolves
the window of that galaxy: every adjacent pair meeting the open window
has gap at most the window width over Nintegration minus one. -/
theorem grid_step_fine_self (Numsigma zcut : ℚ) (N : ℕ) (l : List ℚ) (g : Galaxy)
    (hg : GoodGrid zcut l) (hN : 2 ≤ N)
    (h2 : zminOf Numsigma g ≤ zmaxOf Numsigma zcut g) :
    FineOn (zminOf Numsigma g) (zmaxOf Numsigma zcut g)
      ((zmaxOf Numsigma zcut g - zminOf Numsigma g) / ((N : ℚ) - 1))
      (grid_step Numsigma zcut N l g) := by
  obtain ⟨hs, hmem1, hmem2, hbound⟩ := hg
  intro p hp hphi hplo
  rw [grid_step] at hp
  have hms : (sortQ (l ++ linspaceQ (zminOf Numsigma g) (zmaxOf Numsigma zcut g) N)).Sorted
      (· ≤ ·) := sortQ_sorted _
  have hNq : (0 : ℚ) < (N : ℚ) - 1 := by
    have hc : (2 : ℚ) ≤ (N : ℚ) := by exact_mod_cast hN
    linarith
  have hNq0 : (0 : ℚ) < (N : ℚ) := by linarith
  have hB0 : (0 : ℚ) ≤ (zmaxOf Numsigma zcut g - zminOf Numsigma g) / ((N : ℚ) - 1) :=
    div_nonneg (by linarith) (le_of_lt hNq)
  rcases pruneOdd_pairs _ _ p hp with hin | hgap
  · have hple := pairs_sorted_le _ hms p hin
    rcases eq_or_lt_of_le hple with heq | hlt
    · rw [← heq]
      simpa using hB0
    · have hminlin : zminOf Numsigma g ∈ linspaceQ (zminOf Numsigma g)
          (zmaxOf Numsigma zcut g) N := by
        apply List.mem_of_mem_head?
        rw [linspaceQ_head? _ _ _ (by omega)]
        rfl
      have hmaxlin : zmaxOf Numsigma zcut g ∈ linspaceQ (zminOf Numsigma g)
          (zmaxOf Numsigma zcut g) N := by
        apply List.mem_of_mem_getLast?
        rw [linspaceQ_getLast? _ _ _ hN]
        rfl
      have hminmem : zminOf Numsigma g ∈ sortQ (l ++ linspaceQ (zminOf Numsigma g)
          (zmaxOf Numsigma zcut g) N) := by
        rw [sortQ_mem, List.mem_append]
        exact Or.inr hminlin
      have hmaxmem : zmaxOf Numsigma zcut g ∈ sortQ (l ++ linspaceQ (zminOf Numsigma g)
          (zmaxOf Numsigma zcut g) N) := by
        rw [sortQ_mem, List.mem_append]
        exact Or.inr hmaxlin
      have hua : zminOf Numsigma g ≤ p.1 := by
        rcases sorted_pairs_cover _ hms p hin _ hminmem with h | h
        · exact h
        · exact absurd hplo (not_lt.mpr h)
      have hbv : p.2 ≤ zmaxOf Numsigma zcut g := by
        rcases sorted_pairs_cover _ hms p hin _ hmaxmem with h | h
        · exact absurd hphi (not_lt.mpr h)
        · exact h
      obtain ⟨q, hq, hq1, hq2⟩ := gap_transfer
        (linspaceQ (zminOf Numsigma g) (zmaxOf Numsigma zcut g) N) _
        (linspaceQ_sorted _ _ _ h2) hms
        (fun x hx => by rw [sortQ_mem, List.mem_append]; exact Or.inr hx)
        p hin hlt _ hminlin hua _ hmaxlin hbv
      have hgapq := linspaceQ_pairs_gap (zminOf Numsigma g) (zmaxOf Numsigma zcut g) N q hq
      have : p.2 - p.1 ≤ q.2 - q.1 := by linarith
      rw [hgapq] at this
      exact this
  · have hdB : (zmaxOf Numsigma zcut g - zminOf Numsigma g) / (N : ℚ) ≤
        (zmaxOf Numsigma zcut g - zminOf Numsigma g) / ((N : ℚ) - 1) :=
      div_le_div_of_nonneg_left (by linarith) hNq (by linarith)
    exact le_trans (le_of_lt hgap) hdB

/-- One loop iteration of a later, narrower galaxy preserves the
resolution already achieved on an earlier window: merging only splits
gaps, and pruning creates gaps strictly below its delta, which is at
most the bound. -/
theorem grid_step_fine_preserved (Numsigma zcut : ℚ) (N : ℕ) (l : List ℚ) (h : Galaxy)
    (lo hi B : ℚ) (hfine : FineOn lo hi B l) (hg : GoodGrid zcut l)
    (hB0 : 0 ≤ B)
    (hdelta : (zmaxOf Numsigma zcut h - zminOf Numsigma h) / (N : ℚ) ≤ B)
    (h1 : 1/1000000 ≤ zminOf Numsigma h)
    (h2 : zminOf Numsigma h ≤ zmaxOf Numsigma zcut h)
    (h3 : zmaxOf Numsigma zcut h ≤ zcut) :
    FineOn lo hi B (grid_step Numsigma zcut N l h) := by
  obtain ⟨hs, hmem1, hmem2, hbound⟩ := hg
  intro p hp hphi hplo
  rw [grid_step] at hp
  have hms : (sortQ (l ++ linspaceQ (zminOf Numsigma h) (zmaxOf Numsigma zcut h) N)).Sorted
      (· ≤ ·) := sortQ_sorted _
  have hmb := merged_bound zcut l (zminOf Numsigma h) (zmaxOf Numsigma zcut h) N
    hbound h1 h2 h3
  rcases pruneOdd_pairs _ _ p hp with hin | hgap
  · have hple := pairs_sorted_le _ hms p hin
    rcases eq_or_lt_of_le hple with heq | hlt
    · rw [← heq]
      simpa using hB0
    · have hua : (1/1000000 : ℚ) ≤ p.1 := (hmb p.1 (pairsL_mem_left _ p hin)).1
      have hbv : p.2 ≤ zcut := (hmb p.2 (pairsL_mem_right _ p hin)).2
      obtain ⟨q, hq, hq1, hq2⟩ := gap_transfer l _ hs hms
        (fun x hx => by rw [sortQ_mem, List.mem_append]; exact Or.inl hx)
        p hin hlt _ hmem1 hua _ hmem2 hbv
      have hqb := hfine q hq (lt_of_le_of_lt hq1 hphi) (lt_of_lt_of_le hplo hq2)
      have hmono : p.2 - p.1 ≤ q.2 - q.1 := by linarith
      linarith
  · exact le_trans (le_of_lt hgap) hdelta

/-- The loop preserves well-formedness of the grid. -/
theorem foldl_preserves_good (Numsigma zcut : ℚ) (N : ℕ) :
    ∀ (gs : List Galaxy) (l : List ℚ), GoodGrid zcut l →
      (∀ g ∈ gs, 1/1000000 ≤ zminOf Numsigma g ∧
        zminOf Numsigma g ≤ zmaxOf Numsigma zcut g ∧ zmaxOf Numsigma zcut g ≤ zcut) →
      GoodGrid zcut (gs.foldl (grid_step Numsigma zcut N) l) := by
  intro gs
  induction gs with
  | nil => intro l hg _; exact hg
  | cons g rest ih =>
    intro l hg hcond
    rw [List.foldl_cons]
    obtain ⟨c1, c2, c3⟩ := hcond g (List.mem_cons_self _ _)
    exact ih _ (grid_step_good Numsigma zcut N l g hg c1 c2 c3)
      (fun g2 hg2 => hcond g2 (List.mem_cons_of_mem _ hg2))

/-- The loop preserves resolution on a window, provided every later
galaxy has delta at most the bound. -/
theorem foldl_preserves_fine (Numsigma zcut : ℚ) (N : ℕ) (lo hi B : ℚ) (hB0 : 0 ≤ B) :
    ∀ (gs : List Galaxy) (l : List ℚ), GoodGrid zcut l → FineOn lo hi B l →
      (∀ g ∈ gs, (1/1000000 ≤ zminOf Numsigma g ∧
        zminOf Numsigma g ≤ zmaxOf Numsigma zcut g ∧ zmaxOf Numsigma zcut g ≤ zcut) ∧
        (zmaxOf Numsigma zcut g - zminOf Numsigma g) / (N : ℚ) ≤ B) →
      FineOn lo hi B (gs.foldl (grid_step Numsigma zcut N) l) := by
  intro gs
  induction gs with
  | nil => intro l _ hf _; exact hf
  | cons g rest ih =>
    intro l hg hf hcond
    rw [List.foldl_cons]
    obtain ⟨⟨c1, c2, c3⟩, c4⟩ := hcond g (List.mem_cons_self _ _)
    exact ih _ (grid_step_good Numsigma zcut N l g hg c1 c2 c3)
      (grid_step_fine_preserved Numsigma zcut N l g lo hi B hf hg hB0 c4 c1 c2 c3)
      (fun g2 hg2 => hcond g2 (List.mem_cons_of_mem _ hg2))

/-- After the loop, every processed galaxy has its window resolved at
the linspace step of that galaxy, provided the galaxies are processed
in nonincreasing width order. -/
theorem foldl_establishes_fine (Numsigma zcut : ℚ) (N : ℕ) (hN : 2 ≤ N) :
    ∀ (gs : List Galaxy) (l : List ℚ), GoodGrid zcut l →
      (∀ g ∈ gs, 1/1000000 ≤ zminOf Numsigma g ∧
        zminOf Numsigma g ≤ zmaxOf Numsigma zcut g ∧ zmaxOf Numsigma zcut g ≤ zcut) →
      gs.Sorted (widthGE Numsigma zcut) →
      ∀ g ∈ gs, FineOn (zminOf Numsigma g) (zmaxOf Numsigma zcut g)
        ((zmaxOf Numsigma zcut g - zminOf Numsigma g) / ((N : ℚ) - 1))
        (gs.foldl (grid_step Numsigma zcut N) l) := by
  have hNq : (0 : ℚ) < (N : ℚ) - 1 := by
    have hc : (2 : ℚ) ≤ (N : ℚ) := by exact_mod_cast hN
    linarith
  have hNq0 : (0 : ℚ) < (N : ℚ) := by linarith
  intro gs
  induction gs with
  | nil => intro l _ _ _ g hg; simp at hg
  | cons g0 rest ih =>
    intro l hg hcond hsorted g hgmem
    rw [List.foldl_cons]
    obtain ⟨c1, c2, c3⟩ := hcond g0 (List.mem_cons_self _ _)
    rcases List.mem_cons.mp hgmem with rfl | hgrest
    · have hB0 : (0 : ℚ) ≤ (zmaxOf Numsigma zcut g - zminOf Numsigma g) / ((N : ℚ) - 1) :=
        div_nonneg (by linarith) (le_of_lt hNq)
      apply foldl_preserves_fine Numsigma zcut N _ _ _ hB0 rest _
        (grid_step_good Numsigma zcut N l g hg c1 c2 c3)
        (grid_step_fine_self Numsigma zcut N l g hg hN c2)
      intro h2 hh2
      refine ⟨hcond h2 (List.mem_cons_of_mem _ hh2), ?_⟩
      have hw : zmaxOf Numsigma zcut h2 - zminOf Numsigma h2 ≤
          zmaxOf Numsigma zcut g - zminOf Numsigma g :=
        (List.sorted_cons.mp hsorted).1 h2 hh2
      have hd1 : (zmaxOf Numsigma zcut h2 - zminOf Numsigma h2) / (N : ℚ) ≤
          (zmaxOf Numsigma zcut g - zminOf Numsigma g) / (N : ℚ) :=
        (div_le_div_right hNq0).mpr hw
      have hd2 : (zmaxOf Numsigma zcut g - zminOf Numsigma g) / (N : ℚ) ≤
          (zmaxOf Numsigma zcut g - zminOf Numsigma g) / ((N : ℚ) - 1) :=
        div_le_div_of_nonneg_left (by linarith) hNq (by linarith)
      exact le_trans hd1 hd2
    · exact ih _ (grid_step_good Numsigma zcut N l g0 hg c1 c2 c3)
        (fun g2 hg2 => hcond g2 (List.mem_cons_of_mem _ hg2))
        (List.sorted_cons.mp hsorted).2 g hgrest

/-- Adjacent pairs of a strictly sorted list are strictly ordered. -/
theorem pairs_sorted_lt (l : List ℚ) (hs : l.Sorted (· < ·)) :
    ∀ p ∈ pairsL l, p.1 < p.2 := by
  induction l with
  | nil => intro p hp; simp [pairsL] at hp
  | cons c t ih =>
    intro p hp
    rcases pairsL_cons_cases _ _ _ hp with ⟨d, hd, rfl⟩ | h
    · exact (List.sorted_cons.mp hs).1 d (List.mem_of_mem_head? hd)
    · exact ih (List.sorted_cons.mp hs).2 p h

/-- C6 (amended): for every in-range catalog subset, the adaptive grid
is strictly increasing with no duplicates, its first point is 1e-6 and
its last point is zcut, every point lies in that interval, and for
every in-range galaxy the grid points inside the support window of the
galaxy have consecutive spacing at most the window width divided by
Nintegration minus one (the spacing of Nintegration evenly spaced
points), not by Nintegration as originally claimed. -/
theorem calc_zgrid_spec (cat : List Galaxy) (Numsigma zcut : ℚ) (Nintegration : ℕ)
    (hN : 2 ≤ Nintegration) (hz : 1/1000000 < zcut)
    (hsig : ∀ g ∈ cat, 0 < g.sigmaz) (hNs : 0 ≤ Numsigma)
    (_hne : calc_dN_in_range cat Numsigma zcut ≠ []) :
    (calc_zgrid cat Numsigma zcut Nintegration).Sorted (· < ·) ∧
    (calc_zgrid cat Numsigma zcut Nintegration).head? = some (1/1000000) ∧
    (calc_zgrid cat Numsigma zcut Nintegration).getLast? = some zcut ∧
    (∀ x ∈ calc_zgrid cat Numsigma zcut Nintegration, 1/1000000 ≤ x ∧ x ≤ zcut) ∧
    (∀ g ∈ calc_dN_in_range cat Numsigma zcut,
      ∀ p ∈ pairsL (calc_zgrid cat Numsigma zcut Nintegration),
        zminOf Numsigma g ≤ p.1 → p.2 ≤ zmaxOf Numsigma zcut g →
        p.2 - p.1 ≤ (zmaxOf Numsigma zcut g - zminOf Numsigma g) /
          ((Nintegration : ℚ) - 1)) := by
  have hwin : ∀ g ∈ calc_dN_in_range cat Numsigma zcut,
      1/1000000 ≤ zminOf Numsigma g ∧ zminOf Numsigma g ≤ zmaxOf Numsigma zcut g ∧
      zmaxOf Numsigma zcut g ≤ zcut := by
    intro g hgmem
    rw [calc_dN_in_range, List.mem_filter] at hgmem
    obtain ⟨hgcat, hcond⟩ := hgmem
    simp only [Bool.and_eq_true, decide_eq_true_eq] at hcond
    obtain ⟨hc1, hc2⟩ := hcond
    have hsg : 0 < g.sigmaz := hsig g hgcat
    have hprod : 0 ≤ Numsigma * g.sigmaz := mul_nonneg hNs (le_of_lt hsg)
    refine ⟨le_max_right _ _, ?_, min_le_right _ _⟩
    rw [zminOf, zmaxOf]
    apply max_le
    · apply le_min
      · linarith
      · exact hc1
    · apply le_min
      · exact hc2
      · exact le_of_lt hz
  have hgalsmem : ∀ g, g ∈ (calc_dN_in_range cat Numsigma zcut).insertionSort
      (widthGE Numsigma zcut) ↔ g ∈ calc_dN_in_range cat Numsigma zcut :=
    fun g => (List.perm_insertionSort _ _).mem_iff
  have hgalssorted : ((calc_dN_in_range cat Numsigma zcut).insertionSort
      (widthGE Numsigma zcut)).Sorted (widthGE Numsigma zcut) :=
    List.sorted_insertionSort _ _
  have hwin2 : ∀ g ∈ (calc_dN_in_range cat Numsigma zcut).insertionSort
      (widthGE Numsigma zcut), 1/1000000 ≤ zminOf Numsigma g ∧
      zminOf Numsigma g ≤ zmaxOf Numsigma zcut g ∧ zmaxOf Numsigma zcut g ≤ zcut :=
    fun g hg => hwin g ((hgalsmem g).mp hg)
  have hinit : GoodGrid zcut (linspaceQ (1/1000000) zcut Nintegration) := by
    refine ⟨linspaceQ_sorted _ _ _ (le_of_lt hz), ?_, ?_, ?_⟩
    · apply List.mem_of_mem_head?
      rw [linspaceQ_head? _ _ _ (by omega)]
      rfl
    · apply List.mem_of_mem_getLast?
      rw [linspaceQ_getLast? _ _ _ hN]
      rfl
    · exact linspaceQ_mem_bounds _ _ _ (le_of_lt hz)
  have hfoldgood := foldl_preserves_good Numsigma zcut Nintegration
    ((calc_dN_in_range cat Numsigma zcut).insertionSort (widthGE Numsigma zcut))
    (linspaceQ (1/1000000) zcut Nintegration) hinit hwin2
  have hfoldfine := foldl_establishes_fine Numsigma zcut Nintegration hN
    ((calc_dN_in_range cat Numsigma zcut).insertionSort (widthGE Numsigma zcut))
    (linspaceQ (1/1000000) zcut Nintegration) hinit hwin2 hgalssorted
  have hfold : calc_zgrid cat Numsigma zcut Nintegration =
      dedupSorted (((calc_dN_in_range cat Numsigma zcut).insertionSort
        (widthGE Numsigma zcut)).foldl (grid_step Numsigma zcut Nintegration)
        (linspaceQ (1/1000000) zcut Nintegration)) := by
    rw [calc_zgrid]
    rw [npuniqueQ, sortQ_eq_of_sorted _ hfoldgood.1]
  obtain ⟨hfs, hfm1, hfm2, hfb⟩ := hfoldgood
  have hfinallt : (calc_zgrid cat Numsigma zcut Nintegration).Sorted (· < ·) := by
    rw [hfold]
    exact dedupSorted_sorted_lt _ hfs
  refine ⟨hfinallt, ?_, ?_, ?_, ?_⟩
  · rw [hfold, dedupSorted_head?]
    exact sorted_head?_eq _ hfs _ hfm1 (fun x hx => (hfb x hx).1)
  · rw [hfold, dedupSorted_getLast?]
    exact sorted_getLast?_eq _ hfs _ hfm2 (fun x hx => (hfb x hx).2)
  · rw [hfold]
    intro x hx
    exact hfb x ((dedupSorted_sublist _).mem hx)
  · intro g hgmem p hp hlo hhi
    have hlt : p.1 < p.2 := pairs_sorted_lt _ hfinallt p hp
    rw [hfold] at hp
    have hp2 := dedupSorted_pairs _ p hp
    exact hfoldfine g ((hgalsmem g).mpr hgmem) p hp2
      (lt_of_lt_of_le hlt hhi) (lt_of_le_of_lt hlo hlt)

unseal Rat.add Rat.mul Rat.sub Rat.inv in
/-- Witness for C6: on the single galaxy catalog, the first adjacent gap
of the computed grid satisfies the amended bound, the window width over
Nintegration minus one. -/
theorem calc_zgrid_spec_witness :
    (1000001/2000000 : ℚ) - 1/1000000 ≤
      (zmaxOf 1 1 ⟨1/2, 7/10, 0, 0, 0⟩ - zminOf 1 ⟨1/2, 7/10, 0, 0, 0⟩) /
        (((3 : ℕ) : ℚ) - 1) :=
  (calc_zgrid_spec [⟨1/2, 7/10, 0, 0, 0⟩] 1 1 3 (by omega) (by decide)
    (by intro g hg; rw [List.mem_singleton] at hg; rw [hg]; decide) (by decide)
    (by decide)).2.2.2.2
    ⟨1/2, 7/10, 0, 0, 0⟩ (by decide) ((1/1000000 : ℚ), (1000001/2000000 : ℚ)) (by decide)
    (by decide) (by decide)
